import Mathlib

/-!
Verification of the GF(2^127) arithmetic engine `src/gf2p127.h`.

The C code works on `__m128i` values: 128-bit SSE registers holding two
64-bit lanes.  We model a register as a pair of natural numbers (`lo`, `hi`)
together with a well-formedness predicate bounding each lane by `2^64`;
every intrinsic is modelled bit-exactly, with `% 2^64` wherever the hardware
truncates to a 64-bit lane.  The carry-less multiply primitive
(`_mm_clmulepi64_si128`) is modelled by a structurally recursive shift-and-xor
product `clmulAux`.
-/

/-- A 128-bit SSE register (`__m128i`): two 64-bit lanes, low and high. -/
structure Gf2p127 where
  lo : Nat
  hi : Nat
deriving DecidableEq

/-- Lanes really fit in 64 bits (true of every value the C code constructs). -/
def gfWF (a : Gf2p127) : Prop := a.lo < 2^64 ∧ a.hi < 2^64

/-- The representation invariant of the field element: bit 127 clear. -/
def gfCanon (a : Gf2p127) : Prop := a.lo < 2^64 ∧ a.hi < 2^63

instance (a : Gf2p127) : Decidable (gfWF a) := by unfold gfWF; infer_instance

instance (a : Gf2p127) : Decidable (gfCanon a) := by unfold gfCanon; infer_instance

/-- The 128-bit value held by a register (`(__uint128_t) m` in the C code). -/
def gfVal (a : Gf2p127) : Nat := a.lo ^^^ a.hi <<< 64

/-- Carry-less (GF(2) polynomial, XOR-carry) product, schoolbook shift-and-xor,
with explicit recursion fuel bounding the number of bits of `x` processed. -/
def clmulAux : Nat → Nat → Nat → Nat
  | 0, _, _ => 0
  | fuel+1, x, y => (if x % 2 = 1 then y else 0) ^^^ 2 * clmulAux fuel (x / 2) y

/-- Carry-less product of two operands of at most 128 bits. -/
def clmul128 (x y : Nat) : Nat := clmulAux 128 x y

/-- `_mm_setzero_si128`. -/
def mm_setzero_si128 : Gf2p127 := ⟨0, 0⟩

/-- `_mm_cvtsi32_si128` on a non-negative argument: the C `int` parameter keeps
only the low 32 bits of the caller's value (two's-complement wraparound at the
call boundary), and the instruction zero-extends that 32-bit lane to 128 bits. -/
def mm_cvtsi32_si128 (a : Nat) : Gf2p127 := ⟨a % 2^32, 0⟩

/-- `_mm_xor_si128`: lane-wise (hence bit-wise) XOR. -/
def mm_xor_si128 (a b : Gf2p127) : Gf2p127 := ⟨a.lo ^^^ b.lo, a.hi ^^^ b.hi⟩

/-- `_mm_or_si128`: lane-wise (hence bit-wise) OR. -/
def mm_or_si128 (a b : Gf2p127) : Gf2p127 := ⟨a.lo ||| b.lo, a.hi ||| b.hi⟩

/-- `_mm_slli_epi64`: shift each 64-bit lane left, bits shifted past bit 63 of
the lane are lost. -/
def mm_slli_epi64 (a : Gf2p127) (n : Nat) : Gf2p127 :=
  ⟨((a.lo % 2^64) <<< n) % 2^64, ((a.hi % 2^64) <<< n) % 2^64⟩

/-- `_mm_srli_epi64`: logical right shift of each 64-bit lane. -/
def mm_srli_epi64 (a : Gf2p127) (n : Nat) : Gf2p127 :=
  ⟨(a.lo % 2^64) >>> n, (a.hi % 2^64) >>> n⟩

/-- `_mm_slli_si128(a, 8)`: shift the whole register left by 8 bytes. -/
def mm_slli_si128_8 (a : Gf2p127) : Gf2p127 := ⟨0, a.lo % 2^64⟩

/-- `_mm_srli_si128(a, 8)`: shift the whole register right by 8 bytes. -/
def mm_srli_si128_8 (a : Gf2p127) : Gf2p127 := ⟨a.hi % 2^64, 0⟩

/-- `_mm_alignr_epi8(a, b, 8)`: concatenate `a:b` (256 bits), shift right by
8 bytes, keep the low 128 bits — yielding `⟨b.hi, a.lo⟩`. -/
def mm_alignr_epi8_8 (a b : Gf2p127) : Gf2p127 := ⟨b.hi % 2^64, a.lo % 2^64⟩

/-- `_mm_unpacklo_epi64`: pack the two low lanes. -/
def mm_unpacklo_epi64 (a b : Gf2p127) : Gf2p127 := ⟨a.lo % 2^64, b.lo % 2^64⟩

/-- `_mm_unpackhi_epi64`: pack the two high lanes. -/
def mm_unpackhi_epi64 (a b : Gf2p127) : Gf2p127 := ⟨a.hi % 2^64, b.hi % 2^64⟩

/-- The four 32-bit dwords of a register, index 0 lowest. -/
def dword (a : Gf2p127) : Nat → Nat
  | 0 => a.lo % 2^32
  | 1 => a.lo / 2^32 % 2^32
  | 2 => a.hi % 2^32
  | 3 => a.hi / 2^32 % 2^32
  | _ => 0

/-- `_mm_shuffle_epi32` with selector dwords `s0..s3` (destination dword `i`
receives source dword `sᵢ`); `_MM_SHUFFLE(z, y, x, w)` corresponds to
`s0 = w, s1 = x, s2 = y, s3 = z`. -/
def mm_shuffle_epi32 (a : Gf2p127) (s0 s1 s2 s3 : Nat) : Gf2p127 :=
  ⟨dword a s0 + 2^32 * dword a s1, dword a s2 + 2^32 * dword a s3⟩

/-- `_mm_clmulepi64_si128`: carry-less 64×64→128-bit multiply; bit 0 of the
immediate selects the low or high lane of `a`, bit 4 that of `b`. -/
def mm_clmulepi64_si128 (a b : Gf2p127) (imm : Nat) : Gf2p127 :=
  ⟨clmulAux 64 (if imm % 2 = 1 then a.hi % 2^64 else a.lo % 2^64)
      (if imm / 16 % 2 = 1 then b.hi % 2^64 else b.lo % 2^64) % 2^64,
   clmulAux 64 (if imm % 2 = 1 then a.hi % 2^64 else a.lo % 2^64)
      (if imm / 16 % 2 = 1 then b.hi % 2^64 else b.lo % 2^64) / 2^64⟩

/-- `gf2p127_eq`: compare the two extracted 64-bit lanes of each register. -/
def gf2p127_eq (a b : Gf2p127) : Bool :=
  (a.lo % 2^64 == b.lo % 2^64) && (a.hi % 2^64 == b.hi % 2^64)

/-- `gf2p127_zero`. -/
def gf2p127_zero : Gf2p127 := mm_setzero_si128

/-- `gf2p127_from_int`. -/
def gf2p127_from_int (a : Nat) : Gf2p127 := mm_cvtsi32_si128 a

/-- `gf2p127_mul_bit`: `_mm_slli_epi64(a, !bit * 64)`. -/
def gf2p127_mul_bit (a : Gf2p127) (bit : Bool) : Gf2p127 :=
  mm_slli_epi64 a ((if bit then 0 else 1) * 64)

/-- `gf2p127_add`: bitwise XOR of the two containers. -/
def gf2p127_add (a b : Gf2p127) : Gf2p127 := mm_xor_si128 a b

/-- `gf2p127_mul_00`: returns zero unconditionally. -/
def gf2p127_mul_00 (_ : Gf2p127) : Gf2p127 := mm_setzero_si128

/-- `gf2p127_mul_01`: identity. -/
def gf2p127_mul_01 (a : Gf2p127) : Gf2p127 := a

/-- `gf2p127_mul_10`: multiply by x, with reduction of a degree-127 overflow.
Direct transcription of the C body:
`sl`, `sr`, `c`, `over`, `x127`, `x127x63` (`_MM_SHUFFLE(3,2,3,2)`),
`one` (`_MM_SHUFFLE(3,3,3,2)`). -/
def gf2p127_mul_10 (a : Gf2p127) : Gf2p127 :=
  let sl := mm_slli_epi64 a 1
  let sr := mm_srli_epi64 a 63
  let c := mm_or_si128 sl (mm_slli_si128_8 sr)
  let over := mm_srli_epi64 sl 63
  let x127 := mm_slli_epi64 over 63
  let x127x63 := mm_shuffle_epi32 x127 2 3 2 3
  let one := mm_shuffle_epi32 over 2 3 3 3
  mm_xor_si128 (mm_xor_si128 c x127x63) one

/-- `gf2p127_mul_11 = mul_01 xor mul_10`. -/
def gf2p127_mul_11 (a : Gf2p127) : Gf2p127 :=
  mm_xor_si128 (gf2p127_mul_01 a) (gf2p127_mul_10 a)

/-- The `tmp` register after the first two statements of `gf2p127_mul`'s
Karatsuba stage: `xor(unpacklo(a, b), unpackhi(a, b)) = ⟨a0^a1, b0^b1⟩`. -/
def kar_tmp0 (a b : Gf2p127) : Gf2p127 :=
  mm_xor_si128 (mm_unpacklo_epi64 a b) (mm_unpackhi_epi64 a b)

/-- The `tmp` register after the Karatsuba cross-term line
`tmp <- (a0 + a1) * (b0 + b1) + a0 * b0 + a1 * b1`. -/
def kar_mid (a b : Gf2p127) : Gf2p127 :=
  mm_xor_si128 (mm_clmulepi64_si128 (kar_tmp0 a b) (kar_tmp0 a b) 0x10)
    (mm_xor_si128 (mm_clmulepi64_si128 a b 0x00) (mm_clmulepi64_si128 a b 0x11))

/-- The `lo` register at the end of the Karatsuba stage of `gf2p127_mul`. -/
def kar_lo (a b : Gf2p127) : Gf2p127 :=
  mm_xor_si128 (mm_clmulepi64_si128 a b 0x00) (mm_slli_si128_8 (kar_mid a b))

/-- The `hi` register at the end of the Karatsuba stage of `gf2p127_mul`. -/
def kar_hi (a b : Gf2p127) : Gf2p127 :=
  mm_xor_si128 (mm_clmulepi64_si128 a b 0x11) (mm_srli_si128_8 (kar_mid a b))

/-- The reduction stage of `gf2p127_mul` (modulo `f(x) = x^127 + x^63 + 1`),
a direct transcription of the nine instructions after the
`// Reduction` comment, with the reassignments of `tmp`, `hi`, `lo`
flattened into single-assignment form. -/
def gf2p127_mul_reduce (lo hi : Gf2p127) : Gf2p127 :=
  let tmp := mm_xor_si128 (mm_alignr_epi8_8 hi lo) hi
  let hi2 := mm_slli_epi64 hi 1
  let lo2 := mm_xor_si128 lo hi2
  let hi3 := mm_unpackhi_epi64 hi2 tmp
  let lo3 := mm_xor_si128 lo2 hi3
  let tmp2 := mm_srli_epi64 tmp 63
  let lo4 := mm_xor_si128 lo3 tmp2
  let hi4 := mm_unpacklo_epi64 tmp2 tmp2
  mm_xor_si128 lo4 (mm_slli_epi64 hi4 63)

/-- `gf2p127_mul`: Karatsuba-decomposed carry-less multiplication followed by
reduction modulo `f(x) = x^127 + x^63 + 1`. -/
def gf2p127_mul (a b : Gf2p127) : Gf2p127 :=
  gf2p127_mul_reduce (kar_lo a b) (kar_hi a b)

/-- The field modulus `f(x) = x^127 + x^63 + 1` as a bit string. -/
def fN : Nat := 2^127 + 2^63 + 1

/-- One pass of schoolbook polynomial reduction: with fuel `k + 1`, eliminate
bit `127 + k` (if set) by XORing in `f <<< k`, then recurse downwards. -/
def polyModAux : Nat → Nat → Nat
  | 0, p => p
  | k+1, p => polyModAux k (if p.testBit (127 + k) then p ^^^ (fN <<< k) else p)

/-- Canonical representative modulo `f` of a polynomial of degree < 254. -/
def polyModF (p : Nat) : Nat := polyModAux 127 p

/-- Congruence modulo `f` on bit strings of GF(2) polynomials: `p` and `q`
differ by a carry-less multiple of `f` (quotients of the degrees in play
always fit in 128 bits). -/
def congF (p q : Nat) : Prop := ∃ c, c < 2^128 ∧ p ^^^ q = clmulAux 128 c fN

/-- Low input register of the reduction stage, as a function of the combined
254-bit un-reduced product (bits 0..127). -/
def splitLo (n : Nat) : Gf2p127 := ⟨n % 2^64, n >>> 64 % 2^64⟩

/-- High input register of the reduction stage, as a function of the combined
254-bit un-reduced product (bits 128..253). -/
def splitHi (n : Nat) : Gf2p127 := ⟨n >>> 128 % 2^64, n >>> 192 % 2^64⟩

/-- The reduction stage as a function `Nat → Nat` of the combined un-reduced
product value. -/
def reduceN (n : Nat) : Nat := gfVal (gf2p127_mul_reduce (splitLo n) (splitHi n))

/-- Loop body of `gf2p127_show`: for counter `k` while fuel remains, append
`" + 2^k"` when the current low bit of `a` is set, then halve `a`
(`a >>= 1` in the C code) and continue with `k + 1`. -/
def showLoop : Nat → Nat → Nat → String
  | 0, _, _ => ""
  | fuel+1, k, a =>
    (if a % 2 = 1 then " + 2^" ++ Nat.repr k else "") ++ showLoop fuel (k+1) (a / 2)

/-- `gf2p127_show`: render the element (viewed as `__uint128_t`) as a sum of
powers of two; leading `"1"` or `"0"` for bit 0, then the loop for
`k = 1 .. 127`. -/
def gf2p127_show (m : Gf2p127) : String :=
  (if gfVal m % 2 = 1 then "1" else "0") ++ showLoop 127 1 (gfVal m / 2)

/-- Concatenation of a list of strings (used to state the `show` property). -/
def strConcat (l : List String) : String := l.foldr (fun a b => a ++ b) ""

/-- Lower-case hexadecimal digit for `d < 16`, as printed by `%llx`. -/
def hexChar (d : Nat) : Char :=
  if d < 10 then Char.ofNat (48 + d) else Char.ofNat (87 + d)

/-- Big-endian hexadecimal digits of `n`, zero-padded to `fuel` digits
(`%.16llx` with `fuel = 16`). -/
def toHexAux : Nat → Nat → List Char
  | 0, _ => []
  | fuel+1, n => toHexAux fuel (n / 16) ++ [hexChar (n % 16)]

/-- `gf2p127_hex`: `sprintf(str, "%.16llx%.16llx", high lane, low lane)` —
32 hex digits, high half first, each half zero-padded to 16 digits. -/
def gf2p127_hex (m : Gf2p127) : String :=
  ⟨toHexAux 16 (m.hi % 2^64) ++ toHexAux 16 (m.lo % 2^64)⟩

/-- Numeric value of a lower-case hexadecimal digit character. -/
def hexDigitVal (c : Char) : Nat :=
  if c.toNat < 97 then c.toNat - 48 else c.toNat - 87

/-- Value of a big-endian string of hexadecimal digit characters. -/
def parseHexDigits (l : List Char) : Nat :=
  l.foldl (fun acc c => 16 * acc + hexDigitVal c) 0

/-- Modelled from the spec: the repository's `src/` holds no hex parser, only
the printer, so the round-trip partner is taken from the spec's words:
"parsing the 32-digit string back into (high, low) 64-bit words" — the first
16 digits give the high half, the last 16 the low half. -/
def gf2p127_parse_hex (s : String) : Gf2p127 :=
  ⟨parseHexDigits (s.data.drop 16), parseHexDigits (s.data.take 16)⟩

instance : Std.Associative (fun a b : Nat => a ^^^ b) := ⟨Nat.xor_assoc⟩

instance : Std.Commutative (fun a b : Nat => a ^^^ b) := ⟨Nat.xor_comm⟩

instance : Std.Associative mm_xor_si128 :=
  ⟨fun a b c => by simp [mm_xor_si128, Nat.xor_assoc]⟩

instance : Std.Commutative mm_xor_si128 :=
  ⟨fun a b => by simp [mm_xor_si128, Nat.xor_comm]⟩

/-! Basic toolkit about bits of natural numbers. -/

theorem lt_two_pow_of_high_bits_false :
    ∀ (t : Nat) {p : Nat}, (∀ j, t ≤ j → p.testBit j = false) → p < 2^t := by
  intro t
  induction t with
  | zero =>
    intro p h
    have hp : p = 0 := Nat.eq_of_testBit_eq fun i => by
      simpa using h i (Nat.zero_le i)
    simp [hp]
  | succ t ih =>
    intro p h
    have hp2 : p / 2 < 2^t := ih fun j hj => by
      rw [← Nat.testBit_succ]; exact h (j+1) (by omega)
    have hm : p % 2 < 2 := Nat.mod_lt _ (by norm_num)
    have hd : p = 2 * (p / 2) + p % 2 := by omega
    calc p = 2 * (p / 2) + p % 2 := hd
    _ < 2^(t+1) := by rw [Nat.pow_succ]; omega

theorem two_pow_le_of_testBit {p i : Nat} (h : p.testBit i = true) : 2^i ≤ p := by
  by_contra hlt
  push_neg at hlt
  rw [Nat.testBit_lt_two_pow hlt] at h
  cases h

theorem xor_shiftLeft_distrib (x y n : Nat) : (x ^^^ y) <<< n = x <<< n ^^^ y <<< n := by
  apply Nat.eq_of_testBit_eq; intro i
  simp [Nat.testBit_xor, Nat.testBit_shiftLeft]
  by_cases h : n ≤ i <;> simp [h]

theorem xor_shiftRight_distrib (x y n : Nat) : (x ^^^ y) >>> n = x >>> n ^^^ y >>> n := by
  apply Nat.eq_of_testBit_eq; intro i
  simp [Nat.testBit_xor, Nat.testBit_shiftRight]

theorem xor_mod_two_pow (x y n : Nat) : (x ^^^ y) % 2^n = x % 2^n ^^^ y % 2^n := by
  apply Nat.eq_of_testBit_eq; intro i
  simp [Nat.testBit_xor, Nat.testBit_mod_two_pow]
  by_cases h : i < n <;> simp [h]

theorem or_eq_xor_of_and_eq_zero {x y : Nat} (h : x &&& y = 0) : x ||| y = x ^^^ y := by
  apply Nat.eq_of_testBit_eq; intro i
  have hb : (x.testBit i && y.testBit i) = false := by
    rw [← Nat.testBit_and, h, Nat.zero_testBit]
  simp only [Nat.testBit_or, Nat.testBit_xor]
  cases hx : x.testBit i <;> cases hy : y.testBit i <;> simp_all

theorem shiftLeft_split (x k n : Nat) (hk : k ≤ n) :
    (x <<< k) % 2^n ^^^ (x >>> (n - k)) <<< n = x <<< k := by
  apply Nat.eq_of_testBit_eq; intro i
  simp only [Nat.testBit_xor, Nat.testBit_mod_two_pow, Nat.testBit_shiftLeft,
    Nat.testBit_shiftRight]
  rcases Nat.lt_or_ge i n with h | h
  · have h2 : ¬ (n ≤ i) := by omega
    simp [h, h2]
  · have h1 : ¬ (i < n) := by omega
    have h2 : n ≤ i := h
    have h3 : k ≤ i := by omega
    have h4 : n - k + (i - n) = i - k := by omega
    simp [h1, h2, h3, h4]

theorem split_two_pow (x n : Nat) : x % 2^n ^^^ (x >>> n) <<< n = x := by
  have := shiftLeft_split x 0 n (Nat.zero_le n)
  simpa using this

/-! Properties of the carry-less product `clmulAux`. -/

theorem two_mul_xor (a b : Nat) : 2 * (a ^^^ b) = 2 * a ^^^ 2 * b := by
  have h := xor_shiftLeft_distrib a b 1
  simpa [Nat.shiftLeft_succ, Nat.shiftLeft_zero] using h

theorem xor_left_comm (a b c : Nat) : a ^^^ (b ^^^ c) = b ^^^ (a ^^^ c) := by
  rw [← Nat.xor_assoc, Nat.xor_comm a b, Nat.xor_assoc]

theorem clmulAux_zero_left (f y : Nat) : clmulAux f 0 y = 0 := by
  induction f with
  | zero => rfl
  | succ f ih => simp [clmulAux, ih]

theorem clmulAux_fuel_mono :
    ∀ (f : Nat) {x : Nat}, x < 2^f → ∀ {g : Nat}, f ≤ g → ∀ (y : Nat),
      clmulAux f x y = clmulAux g x y := by
  intro f
  induction f with
  | zero =>
    intro x hx g _ y
    have : x = 0 := by omega
    simp [this, clmulAux_zero_left, clmulAux]
  | succ f ih =>
    intro x hx g hg y
    obtain ⟨g', rfl⟩ : ∃ g', g = g' + 1 := ⟨g - 1, by omega⟩
    have hx2 : x / 2 < 2^f := by
      rw [Nat.pow_succ] at hx; omega
    simp only [clmulAux]
    rw [ih hx2 (show f ≤ g' by omega) y]

theorem clmulAux_one_left (f y : Nat) (hf : 1 ≤ f) : clmulAux f 1 y = y := by
  obtain ⟨f', rfl⟩ : ∃ f', f = f' + 1 := ⟨f - 1, by omega⟩
  simp [clmulAux, clmulAux_zero_left]

theorem xor_cancel_middle (y a b : Nat) : (y ^^^ a) ^^^ (y ^^^ b) = a ^^^ b := by
  rw [Nat.xor_comm y a, Nat.xor_assoc, ← Nat.xor_assoc y y, Nat.xor_self, Nat.zero_xor]

theorem clmulAux_xor_left (f : Nat) :
    ∀ (x x' y : Nat), clmulAux f (x ^^^ x') y = clmulAux f x y ^^^ clmulAux f x' y := by
  induction f with
  | zero => intro x x' y; simp [clmulAux]
  | succ f ih =>
    intro x x' y
    have hmod : (x ^^^ x') % 2 = x % 2 ^^^ x' % 2 := by
      have := xor_mod_two_pow x x' 1
      simpa using this
    have hdiv : (x ^^^ x') / 2 = x / 2 ^^^ x' / 2 := by
      have := xor_shiftRight_distrib x x' 1
      simpa [Nat.shiftRight_succ, Nat.shiftRight_zero] using this
    simp only [clmulAux, hdiv, ih, two_mul_xor]
    rcases Nat.mod_two_eq_zero_or_one x with hx | hx <;>
        rcases Nat.mod_two_eq_zero_or_one x' with hx' | hx'
    · have hm : (x ^^^ x') % 2 = 0 := by simp [hmod, hx, hx']
      simp [hx, hx', hm]
    · have hm : (x ^^^ x') % 2 = 1 := by simp [hmod, hx, hx']
      simp [hx, hx', hm]
      rw [xor_left_comm]
    · have hm : (x ^^^ x') % 2 = 1 := by simp [hmod, hx, hx']
      simp [hx, hx', hm]
      rw [Nat.xor_assoc]
    · have hm : (x ^^^ x') % 2 = 0 := by simp [hmod, hx, hx']
      simp [hx, hx', hm]
      rw [xor_cancel_middle]

theorem clmulAux_xor_right (f : Nat) :
    ∀ (x y y' : Nat), clmulAux f x (y ^^^ y') = clmulAux f x y ^^^ clmulAux f x y' := by
  induction f with
  | zero => intro x y y'; simp [clmulAux]
  | succ f ih =>
    intro x y y'
    simp only [clmulAux, ih, two_mul_xor]
    rcases Nat.mod_two_eq_zero_or_one x with hx | hx <;>
      simp [hx] <;>
      simp [Nat.xor_assoc, Nat.xor_comm, xor_left_comm]

theorem clmulAux_shiftLeft_right (f : Nat) :
    ∀ (x y k : Nat), clmulAux f x (y <<< k) = clmulAux f x y <<< k := by
  induction f with
  | zero => intro x y k; simp [clmulAux]
  | succ f ih =>
    intro x y k
    simp only [clmulAux, ih, xor_shiftLeft_distrib]
    have h2 : ∀ z : Nat, 2 * (z <<< k) = (2 * z) <<< k := by
      intro z
      simp [Nat.shiftLeft_eq, Nat.mul_assoc, Nat.mul_comm, Nat.mul_left_comm]
    rcases Nat.mod_two_eq_zero_or_one x with hx | hx <;> simp [hx, h2]

theorem clmulAux_two_pow_left :
    ∀ (k f y : Nat), k < f → clmulAux f (2^k) y = y <<< k := by
  intro k
  induction k with
  | zero =>
    intro f y hf
    simpa [Nat.shiftLeft_zero] using clmulAux_one_left f y (by omega)
  | succ k ih =>
    intro f y hf
    obtain ⟨f', rfl⟩ : ∃ f', f = f' + 1 := ⟨f - 1, by omega⟩
    have h1 : 2^(k+1) % 2 = 0 := by
      simp [Nat.pow_succ, Nat.mul_mod_left]
    have h2 : 2^(k+1) / 2 = 2^k := by
      simp [Nat.pow_succ]
    simp only [clmulAux, h1, h2]
    rw [ih f' y (by omega)]
    simp [Nat.shiftLeft_succ]

theorem clmulAux_shiftLeft_left :
    ∀ (k f g x y : Nat), x < 2^f → f + k ≤ g →
      clmulAux g (x <<< k) y = clmulAux f x y <<< k := by
  intro k
  induction k with
  | zero =>
    intro f g x y hx hg
    rw [Nat.shiftLeft_zero, Nat.shiftLeft_zero, clmulAux_fuel_mono f hx (show f ≤ g by omega) y]
  | succ k ih =>
    intro f g x y hx hg
    obtain ⟨g', rfl⟩ : ∃ g', g = g' + 1 := ⟨g - 1, by omega⟩
    have hs : x <<< (k+1) = 2 * x <<< k := Nat.shiftLeft_succ x k
    have h1 : (2 * (x <<< k)) % 2 = 0 := Nat.mul_mod_right 2 _
    have h2 : (2 * (x <<< k)) / 2 = x <<< k := by omega
    simp only [clmulAux, hs, h1, h2]
    rw [ih f g' x y hx (by omega)]
    simp [Nat.shiftLeft_succ]

theorem clmulAux_lt :
    ∀ (f : Nat) {x y m n : Nat}, x < 2^m → y < 2^n → clmulAux f x y < 2^(m+n) := by
  intro f
  induction f with
  | zero => intro x y m n _ _; exact Nat.pos_pow_of_pos _ (by norm_num)
  | succ f ih =>
    intro x y m n hx hy
    rcases Nat.eq_zero_or_pos x with hx0 | hx0
    · subst hx0
      rw [clmulAux_zero_left]
      exact Nat.pos_pow_of_pos _ (by norm_num)
    · obtain ⟨m', rfl⟩ : ∃ m', m = m' + 1 := by
        rcases m with _ | m'
        · exfalso; omega
        · exact ⟨m', rfl⟩
      have hx2 : x / 2 < 2^m' := by rw [Nat.pow_succ] at hx; omega
      have hrec := ih hx2 hy
      apply Nat.xor_lt_two_pow
      · have h1 : (if x % 2 = 1 then y else 0) < 2^n := by
          rcases Nat.mod_two_eq_zero_or_one x with h | h
          · rw [if_neg (by omega)]
            exact Nat.pos_pow_of_pos _ (by norm_num)
          · rw [if_pos h]
            exact hy
        calc (if x % 2 = 1 then y else 0) < 2^n := h1
        _ ≤ 2^(m' + 1 + n) := Nat.pow_le_pow_right (by norm_num) (by omega)
      · have : m' + 1 + n = (m' + n) + 1 := by omega
        rw [this, Nat.pow_succ]
        omega

theorem clmulAux_testBit_top :
    ∀ (m : Nat) {fuel x y n : Nat}, m < fuel → x < 2^(m+1) → x.testBit m = true →
      y < 2^(n+1) → y.testBit n = true → (clmulAux fuel x y).testBit (m+n) = true := by
  intro m
  induction m with
  | zero =>
    intro fuel x y n hf hx htx hy hty
    have hx1 : x = 1 := by
      rw [Nat.testBit_zero] at htx
      have : x % 2 = 1 := by simpa using htx
      omega
    rw [hx1, clmulAux_one_left fuel y (by omega)]
    simpa using hty
  | succ m ih =>
    intro fuel x y n hf hx htx hy hty
    obtain ⟨f', rfl⟩ : ∃ f', fuel = f' + 1 := ⟨fuel - 1, by omega⟩
    have hx2 : x / 2 < 2^(m+1) := by rw [Nat.pow_succ] at hx; omega
    have htx2 : (x / 2).testBit m = true := by
      rw [← Nat.testBit_succ]; exact htx
    have hrec := ih (show m < f' by omega) hx2 htx2 hy hty
    simp only [clmulAux, Nat.testBit_xor]
    have h1 : (if x % 2 = 1 then y else 0).testBit (m + 1 + n) = false := by
      apply Nat.testBit_lt_two_pow
      rcases Nat.mod_two_eq_zero_or_one x with h | h
      · rw [if_neg (by omega)]
        exact Nat.pos_pow_of_pos _ (by norm_num)
      · rw [if_pos h]
        calc y < 2^(n+1) := hy
        _ ≤ 2^(m+1+n) := Nat.pow_le_pow_right (by norm_num) (by omega)
    have h2 : (2 * clmulAux f' (x / 2) y).testBit (m + 1 + n) = true := by
      have hs : 2 * clmulAux f' (x / 2) y = (clmulAux f' (x / 2) y) <<< 1 := by
        simp [Nat.shiftLeft_succ, Nat.shiftLeft_zero]
      rw [hs, Nat.testBit_shiftLeft]
      have hge : m + 1 + n ≥ 1 := by omega
      have hidx : m + 1 + n - 1 = m + n := by omega
      simp [hge, hidx, hrec]
    rw [h1, h2]
    rfl

/-! Properties of the schoolbook reduction `polyModAux` and of congruence
modulo `f`. -/

theorem fN_testBit_127 : fN.testBit 127 = true := by decide

theorem fN_lt : fN < 2^128 := by decide

theorem polyModAux_xor (k : Nat) :
    ∀ p q, polyModAux k (p ^^^ q) = polyModAux k p ^^^ polyModAux k q := by
  induction k with
  | zero => intro p q; simp [polyModAux]
  | succ k ih =>
    intro p q
    simp only [polyModAux]
    have hstep : (if (p ^^^ q).testBit (127+k) then (p ^^^ q) ^^^ fN <<< k else (p ^^^ q))
        = (if p.testBit (127+k) then p ^^^ fN <<< k else p)
          ^^^ (if q.testBit (127+k) then q ^^^ fN <<< k else q) := by
      cases hp : p.testBit (127+k) <;> cases hq : q.testBit (127+k) <;>
        simp [Nat.testBit_xor, hp, hq]
      · rw [Nat.xor_assoc]
      · ac_rfl
      · rw [Nat.xor_comm p (fN <<< k), Nat.xor_comm q (fN <<< k), xor_cancel_middle]
    rw [hstep, ih]

theorem polyModAux_lt : ∀ (k : Nat) {p : Nat}, p < 2^(127+k) → polyModAux k p < 2^127 := by
  intro k
  induction k with
  | zero => intro p hp; simpa [polyModAux] using hp
  | succ k ih =>
    intro p hp
    simp only [polyModAux]
    apply ih
    cases ht : p.testBit (127+k)
    · rw [if_neg (by simp)]
      apply lt_two_pow_of_high_bits_false
      intro j hj
      rcases Nat.eq_or_lt_of_le hj with rfl | hj'
      · exact ht
      · apply Nat.testBit_lt_two_pow
        calc p < 2^(127+(k+1)) := hp
        _ ≤ 2^j := Nat.pow_le_pow_right (by norm_num) (by omega)
    · rw [if_pos rfl]
      apply lt_two_pow_of_high_bits_false
      intro j hj
      rw [Nat.testBit_xor]
      rcases Nat.eq_or_lt_of_le hj with rfl | hj'
      · have h2 : (fN <<< k).testBit (127+k) = true := by
          rw [Nat.testBit_shiftLeft]
          have : 127 + k ≥ k := by omega
          simp [this, fN_testBit_127]
        rw [ht, h2]
        rfl
      · have h1 : p.testBit j = false := by
          apply Nat.testBit_lt_two_pow
          calc p < 2^(127+(k+1)) := hp
          _ ≤ 2^j := Nat.pow_le_pow_right (by norm_num) (by omega)
        have h2 : (fN <<< k).testBit j = false := by
          rw [Nat.testBit_shiftLeft]
          rcases Nat.lt_or_ge j k with hk | hk
          · simp [Nat.not_le.mpr hk]
          · have : fN.testBit (j - k) = false := by
              apply Nat.testBit_lt_two_pow
              calc fN < 2^128 := fN_lt
              _ ≤ 2^(j - k) := Nat.pow_le_pow_right (by norm_num) (by omega)
            simp [hk, this]
        rw [h1, h2]
        rfl

theorem polyModAux_congSub :
    ∀ (k : Nat), k ≤ 127 → ∀ (p : Nat), ∃ c, c < 2^k ∧
      p ^^^ polyModAux k p = clmulAux 128 c fN := by
  intro k
  induction k with
  | zero =>
    intro _ p
    exact ⟨0, by norm_num, by simp [polyModAux, clmulAux_zero_left]⟩
  | succ k ih =>
    intro hk p
    obtain ⟨c', hc', heq⟩ :=
      ih (by omega) (if p.testBit (127+k) then p ^^^ fN <<< k else p)
    cases ht : p.testBit (127+k)
    · rw [ht] at heq
      simp only [Bool.false_eq_true, if_false] at heq
      refine ⟨c', ?_, ?_⟩
      · calc c' < 2^k := hc'
        _ ≤ 2^(k+1) := Nat.pow_le_pow_right (by norm_num) (by omega)
      · simp only [polyModAux, ht, Bool.false_eq_true, if_false]
        exact heq
    · rw [ht] at heq
      simp only [if_true] at heq
      refine ⟨c' ^^^ 2^k, ?_, ?_⟩
      · apply Nat.xor_lt_two_pow
        · calc c' < 2^k := hc'
          _ ≤ 2^(k+1) := Nat.pow_le_pow_right (by norm_num) (by omega)
        · exact Nat.pow_lt_pow_right (by norm_num) (by omega)
      · simp only [polyModAux, ht, if_true]
        rw [clmulAux_xor_left, ← heq, clmulAux_two_pow_left k 128 fN (by omega)]
        rw [Nat.xor_assoc (p ^^^ fN <<< k) (polyModAux k (p ^^^ fN <<< k)) (fN <<< k)]
        rw [Nat.xor_comm (polyModAux k (p ^^^ fN <<< k)) (fN <<< k)]
        rw [← Nat.xor_assoc (p ^^^ fN <<< k) (fN <<< k) (polyModAux k (p ^^^ fN <<< k))]
        rw [Nat.xor_assoc p (fN <<< k) (fN <<< k), Nat.xor_self, Nat.xor_zero]

theorem polyModF_lt {p : Nat} (hp : p < 2^254) : polyModF p < 2^127 :=
  polyModAux_lt 127 (by exact_mod_cast hp)

theorem polyModF_xor (p q : Nat) : polyModF (p ^^^ q) = polyModF p ^^^ polyModF q :=
  polyModAux_xor 127 p q

theorem congF_of_polyModF (p : Nat) : congF p (polyModF p) := by
  obtain ⟨c, hc, heq⟩ := polyModAux_congSub 127 (by omega) p
  exact ⟨c, lt_of_lt_of_le hc (Nat.pow_le_pow_right (by norm_num) (by omega)), heq⟩

theorem congF_symm {p q : Nat} (h : congF p q) : congF q p := by
  obtain ⟨c, hc, heq⟩ := h
  exact ⟨c, hc, by rw [Nat.xor_comm]; exact heq⟩

theorem congF_trans {p q r : Nat} (h1 : congF p q) (h2 : congF q r) : congF p r := by
  obtain ⟨c1, hc1, he1⟩ := h1
  obtain ⟨c2, hc2, he2⟩ := h2
  refine ⟨c1 ^^^ c2, Nat.xor_lt_two_pow hc1 hc2, ?_⟩
  rw [clmulAux_xor_left, ← he1, ← he2]
  rw [Nat.xor_assoc p q (q ^^^ r), ← Nat.xor_assoc q q r, Nat.xor_self, Nat.zero_xor]

theorem congF_unique {p q : Nat} (hp : p < 2^127) (hq : q < 2^127) (h : congF p q) :
    p = q := by
  obtain ⟨c, hc, heq⟩ := h
  rcases Nat.eq_zero_or_pos c with rfl | hc0
  · rw [clmulAux_zero_left] at heq
    have : p ^^^ (p ^^^ q) = p ^^^ 0 := by rw [heq]
    rw [← Nat.xor_assoc, Nat.xor_self, Nat.zero_xor, Nat.xor_zero] at this
    exact this.symm
  · exfalso
    obtain ⟨i, hti, hhi⟩ := Nat.exists_most_significant_bit (Nat.pos_iff_ne_zero.mp hc0)
    have hci : c < 2^(i+1) := by
      apply lt_two_pow_of_high_bits_false
      intro j hj
      exact hhi j (by omega)
    have hi128 : i < 128 := by
      by_contra hge
      push_neg at hge
      have h1 : 2^i ≤ c := two_pow_le_of_testBit hti
      have h2 : (2:Nat)^128 ≤ 2^i := Nat.pow_le_pow_right (by norm_num) hge
      omega
    have htop : (clmulAux 128 c fN).testBit (i + 127) = true :=
      clmulAux_testBit_top i hi128 hci hti (by exact_mod_cast fN_lt) fN_testBit_127
    have hlt : p ^^^ q < 2^127 := Nat.xor_lt_two_pow hp hq
    rw [← heq] at htop
    have hge : 2^(i+127) ≤ p ^^^ q := two_pow_le_of_testBit htop
    have : (2:Nat)^127 ≤ 2^(i+127) := Nat.pow_le_pow_right (by norm_num) (by omega)
    omega

theorem polyModAux_eq_self : ∀ (k : Nat) {p : Nat}, p < 2^127 → polyModAux k p = p := by
  intro k
  induction k with
  | zero => intro p _; rfl
  | succ k ih =>
    intro p hp
    have ht : p.testBit (127+k) = false := by
      apply Nat.testBit_lt_two_pow
      calc p < 2^127 := hp
      _ ≤ 2^(127+k) := Nat.pow_le_pow_right (by norm_num) (by omega)
    simp [polyModAux, ht, ih hp]

theorem polyModF_eq_self {p : Nat} (hp : p < 2^127) : polyModF p = p :=
  polyModAux_eq_self 127 hp

theorem polyModAux_small :
    ∀ (k : Nat) {p : Nat}, p < 2^128 →
      polyModAux (k+1) p = if p.testBit 127 then p ^^^ fN else p := by
  intro k
  induction k with
  | zero =>
    intro p hp
    cases ht : p.testBit 127
    · simp [polyModAux, ht]
    · simp [polyModAux, ht, Nat.shiftLeft_zero]
  | succ k ih =>
    intro p hp
    have ht : p.testBit (127+(k+1)) = false := by
      apply Nat.testBit_lt_two_pow
      calc p < 2^128 := hp
      _ ≤ 2^(127+(k+1)) := Nat.pow_le_pow_right (by norm_num) (by omega)
    have hstep : polyModAux (k+1+1) p = polyModAux (k+1) p := by
      simp [polyModAux, ht]
    rw [hstep, ih hp]

theorem polyModF_small {p : Nat} (hp : p < 2^128) :
    polyModF p = if p.testBit 127 then p ^^^ fN else p :=
  polyModAux_small 126 hp

/-! Register-level facts: values, well-formedness, linearity over XOR. -/

theorem xor_cancel_left (a b : Nat) : a ^^^ (a ^^^ b) = b := by
  rw [← Nat.xor_assoc, Nat.xor_self, Nat.zero_xor]

theorem xor_xor_interchange (p q r s : Nat) : (p ^^^ q) ^^^ (r ^^^ s) = (p ^^^ r) ^^^ (q ^^^ s) := by
  rw [Nat.xor_assoc p q (r ^^^ s), xor_left_comm q r s, ← Nat.xor_assoc p r (q ^^^ s)]

theorem gfVal_xor (a b : Gf2p127) : gfVal (mm_xor_si128 a b) = gfVal a ^^^ gfVal b := by
  simp only [gfVal, mm_xor_si128, xor_shiftLeft_distrib]
  rw [xor_xor_interchange]

theorem shiftLeft_mod_two_pow_64 (x : Nat) : (x <<< 64) % 2^64 = 0 := by
  rw [Nat.shiftLeft_eq, Nat.mul_mod_left]

theorem gfVal_lo {x : Gf2p127} (hx : gfWF x) : x.lo = gfVal x % 2^64 := by
  rw [gfVal, xor_mod_two_pow, shiftLeft_mod_two_pow_64, Nat.xor_zero,
    Nat.mod_eq_of_lt hx.1]

theorem gfVal_hi {x : Gf2p127} (hx : gfWF x) : x.hi = gfVal x >>> 64 := by
  rw [gfVal, xor_shiftRight_distrib]
  have h1 : x.lo >>> 64 = 0 := by
    rw [Nat.shiftRight_eq_div_pow]
    exact Nat.div_eq_of_lt hx.1
  have h2 : (x.hi <<< 64) >>> 64 = x.hi := by
    rw [Nat.shiftLeft_eq, Nat.shiftRight_eq_div_pow]
    exact Nat.mul_div_cancel x.hi (by norm_num)
  rw [h1, h2, Nat.zero_xor]

theorem gfVal_mk_split {p : Nat} (hp : p < 2^128) : gfVal ⟨p % 2^64, p / 2^64⟩ = p := by
  show p % 2^64 ^^^ (p / 2^64) <<< 64 = p
  rw [← Nat.shiftRight_eq_div_pow, split_two_pow]

theorem gfVal_lt {x : Gf2p127} (hx : gfWF x) : gfVal x < 2^128 := by
  apply Nat.xor_lt_two_pow
  · exact lt_of_lt_of_le hx.1 (by norm_num)
  · rw [Nat.shiftLeft_eq]
    have := hx.2
    norm_num
    omega

theorem gfVal_lt_of_canon {x : Gf2p127} (hx : gfCanon x) : gfVal x < 2^127 := by
  apply Nat.xor_lt_two_pow
  · exact lt_of_lt_of_le hx.1 (by norm_num)
  · rw [Nat.shiftLeft_eq]
    have := hx.2
    norm_num
    omega

theorem gf_ext {x y : Gf2p127} (h1 : x.lo = y.lo) (h2 : x.hi = y.hi) : x = y := by
  cases x
  cases y
  simp_all

theorem gfVal_inj {x y : Gf2p127} (hx : gfWF x) (hy : gfWF y) (h : gfVal x = gfVal y) :
    x = y := by
  apply gf_ext
  · rw [gfVal_lo hx, gfVal_lo hy, h]
  · rw [gfVal_hi hx, gfVal_hi hy, h]

theorem mm_clmul_spec (a b : Gf2p127) (imm : Nat) :
    gfVal (mm_clmulepi64_si128 a b imm) =
      clmulAux 64 (if imm % 2 = 1 then a.hi % 2^64 else a.lo % 2^64)
        (if imm / 16 % 2 = 1 then b.hi % 2^64 else b.lo % 2^64) := by
  have hx : (if imm % 2 = 1 then a.hi % 2^64 else a.lo % 2^64) < 2^64 := by
    split <;> exact Nat.mod_lt _ (by norm_num)
  have hy : (if imm / 16 % 2 = 1 then b.hi % 2^64 else b.lo % 2^64) < 2^64 := by
    split <;> exact Nat.mod_lt _ (by norm_num)
  have hp : clmulAux 64 (if imm % 2 = 1 then a.hi % 2^64 else a.lo % 2^64)
      (if imm / 16 % 2 = 1 then b.hi % 2^64 else b.lo % 2^64) < 2^128 := by
    have := clmulAux_lt 64 hx hy
    simpa using this
  exact gfVal_mk_split hp

theorem gfWF_clmul (a b : Gf2p127) (imm : Nat) : gfWF (mm_clmulepi64_si128 a b imm) := by
  have hx : (if imm % 2 = 1 then a.hi % 2^64 else a.lo % 2^64) < 2^64 := by
    split <;> exact Nat.mod_lt _ (by norm_num)
  have hy : (if imm / 16 % 2 = 1 then b.hi % 2^64 else b.lo % 2^64) < 2^64 := by
    split <;> exact Nat.mod_lt _ (by norm_num)
  have hp := clmulAux_lt 64 hx hy
  constructor
  · exact Nat.mod_lt _ (by norm_num)
  · show clmulAux 64 _ _ / 2^64 < 2^64
    have : (2:Nat)^(64+64) = 2^64 * 2^64 := by rw [Nat.pow_add]
    rw [this] at hp
    exact Nat.div_lt_of_lt_mul hp

theorem gfWF_xor {a b : Gf2p127} (ha : gfWF a) (hb : gfWF b) : gfWF (mm_xor_si128 a b) :=
  ⟨Nat.xor_lt_two_pow ha.1 hb.1, Nat.xor_lt_two_pow ha.2 hb.2⟩

theorem gfWF_mod_lanes (x y : Nat) : gfWF ⟨x % 2^64, y % 2^64⟩ :=
  ⟨Nat.mod_lt _ (by norm_num), Nat.mod_lt _ (by norm_num)⟩

theorem gfWF_slli_epi64 (a : Gf2p127) (n : Nat) : gfWF (mm_slli_epi64 a n) :=
  gfWF_mod_lanes _ _

theorem gfWF_srli_epi64 (a : Gf2p127) (n : Nat) : gfWF (mm_srli_epi64 a n) := by
  constructor
  · show (a.lo % 2^64) >>> n < 2^64
    rw [Nat.shiftRight_eq_div_pow]
    exact lt_of_le_of_lt (Nat.div_le_self _ _) (Nat.mod_lt _ (by norm_num))
  · show (a.hi % 2^64) >>> n < 2^64
    rw [Nat.shiftRight_eq_div_pow]
    exact lt_of_le_of_lt (Nat.div_le_self _ _) (Nat.mod_lt _ (by norm_num))

theorem gfWF_slli_si128_8 (a : Gf2p127) : gfWF (mm_slli_si128_8 a) :=
  ⟨by show (0:Nat) < 2^64; norm_num, Nat.mod_lt _ (by norm_num)⟩

theorem gfWF_srli_si128_8 (a : Gf2p127) : gfWF (mm_srli_si128_8 a) :=
  ⟨Nat.mod_lt _ (by norm_num), by show (0:Nat) < 2^64; norm_num⟩

theorem gfWF_alignr (a b : Gf2p127) : gfWF (mm_alignr_epi8_8 a b) :=
  gfWF_mod_lanes _ _

theorem gfWF_unpacklo (a b : Gf2p127) : gfWF (mm_unpacklo_epi64 a b) :=
  gfWF_mod_lanes _ _

theorem gfWF_unpackhi (a b : Gf2p127) : gfWF (mm_unpackhi_epi64 a b) :=
  gfWF_mod_lanes _ _

theorem slli_epi64_xor (a b : Gf2p127) (n : Nat) :
    mm_slli_epi64 (mm_xor_si128 a b) n
      = mm_xor_si128 (mm_slli_epi64 a n) (mm_slli_epi64 b n) := by
  simp only [mm_slli_epi64, mm_xor_si128, Gf2p127.mk.injEq]
  constructor <;> rw [xor_mod_two_pow, xor_shiftLeft_distrib, xor_mod_two_pow]

theorem srli_epi64_xor (a b : Gf2p127) (n : Nat) :
    mm_srli_epi64 (mm_xor_si128 a b) n
      = mm_xor_si128 (mm_srli_epi64 a n) (mm_srli_epi64 b n) := by
  simp only [mm_srli_epi64, mm_xor_si128, Gf2p127.mk.injEq]
  constructor <;> rw [xor_mod_two_pow, xor_shiftRight_distrib]

theorem slli_si128_8_xor (a b : Gf2p127) :
    mm_slli_si128_8 (mm_xor_si128 a b)
      = mm_xor_si128 (mm_slli_si128_8 a) (mm_slli_si128_8 b) := by
  simp only [mm_slli_si128_8, mm_xor_si128, Gf2p127.mk.injEq]
  exact ⟨by rfl, xor_mod_two_pow _ _ _⟩

theorem srli_si128_8_xor (a b : Gf2p127) :
    mm_srli_si128_8 (mm_xor_si128 a b)
      = mm_xor_si128 (mm_srli_si128_8 a) (mm_srli_si128_8 b) := by
  simp only [mm_srli_si128_8, mm_xor_si128, Gf2p127.mk.injEq]
  exact ⟨xor_mod_two_pow _ _ _, by rfl⟩

theorem alignr_xor (a a' b b' : Gf2p127) :
    mm_alignr_epi8_8 (mm_xor_si128 a a') (mm_xor_si128 b b')
      = mm_xor_si128 (mm_alignr_epi8_8 a b) (mm_alignr_epi8_8 a' b') := by
  simp only [mm_alignr_epi8_8, mm_xor_si128, Gf2p127.mk.injEq]
  exact ⟨xor_mod_two_pow _ _ _, xor_mod_two_pow _ _ _⟩

theorem unpacklo_xor (a a' b b' : Gf2p127) :
    mm_unpacklo_epi64 (mm_xor_si128 a a') (mm_xor_si128 b b')
      = mm_xor_si128 (mm_unpacklo_epi64 a b) (mm_unpacklo_epi64 a' b') := by
  simp only [mm_unpacklo_epi64, mm_xor_si128, Gf2p127.mk.injEq]
  exact ⟨xor_mod_two_pow _ _ _, xor_mod_two_pow _ _ _⟩

theorem unpackhi_xor (a a' b b' : Gf2p127) :
    mm_unpackhi_epi64 (mm_xor_si128 a a') (mm_xor_si128 b b')
      = mm_xor_si128 (mm_unpackhi_epi64 a b) (mm_unpackhi_epi64 a' b') := by
  simp only [mm_unpackhi_epi64, mm_xor_si128, Gf2p127.mk.injEq]
  exact ⟨xor_mod_two_pow _ _ _, xor_mod_two_pow _ _ _⟩

theorem xor_perm_lane_lo (a1 a2 a3 a4 a5 a6 a7 b1 b2 b3 b4 b5 b6 b7 : Nat) :
    a1 ^^^ b1 ^^^ (a2 ^^^ b2) ^^^ (a3 ^^^ b3) ^^^ (a4 ^^^ b4 ^^^ (a5 ^^^ b5)) ^^^
      (a6 ^^^ b6 ^^^ (a7 ^^^ b7))
    = a1 ^^^ a2 ^^^ a3 ^^^ (a4 ^^^ a5) ^^^ (a6 ^^^ a7) ^^^
        (b1 ^^^ b2 ^^^ b3 ^^^ (b4 ^^^ b5) ^^^ (b6 ^^^ b7)) := by
  ac_rfl

theorem xor_perm_lane_hi (a1 a2 a3 a4 a5 a6 a7 a8 b1 b2 b3 b4 b5 b6 b7 b8 : Nat) :
    a1 ^^^ b1 ^^^ (a2 ^^^ b2) ^^^ (a3 ^^^ b3 ^^^ (a4 ^^^ b4)) ^^^
      (a5 ^^^ b5 ^^^ (a6 ^^^ b6)) ^^^ (a7 ^^^ b7 ^^^ (a8 ^^^ b8))
    = a1 ^^^ a2 ^^^ (a3 ^^^ a4) ^^^ (a5 ^^^ a6) ^^^ (a7 ^^^ a8) ^^^
        (b1 ^^^ b2 ^^^ (b3 ^^^ b4) ^^^ (b5 ^^^ b6) ^^^ (b7 ^^^ b8)) := by
  ac_rfl

theorem gf2p127_mul_reduce_xor (l l' h h' : Gf2p127) :
    gf2p127_mul_reduce (mm_xor_si128 l l') (mm_xor_si128 h h')
      = mm_xor_si128 (gf2p127_mul_reduce l h) (gf2p127_mul_reduce l' h') := by
  simp only [gf2p127_mul_reduce, mm_xor_si128, mm_alignr_epi8_8, mm_slli_epi64,
    mm_srli_epi64, mm_unpackhi_epi64, mm_unpacklo_epi64, Gf2p127.mk.injEq]
  constructor
  · simp only [xor_mod_two_pow, xor_shiftLeft_distrib, xor_shiftRight_distrib]
    apply xor_perm_lane_lo
  · simp only [xor_mod_two_pow, xor_shiftLeft_distrib, xor_shiftRight_distrib]
    apply xor_perm_lane_hi

theorem splitLo_xor (m n : Nat) : splitLo (m ^^^ n) = mm_xor_si128 (splitLo m) (splitLo n) := by
  simp only [splitLo, mm_xor_si128, Gf2p127.mk.injEq]
  exact ⟨xor_mod_two_pow _ _ _, by rw [xor_shiftRight_distrib, xor_mod_two_pow]⟩

theorem splitHi_xor (m n : Nat) : splitHi (m ^^^ n) = mm_xor_si128 (splitHi m) (splitHi n) := by
  simp only [splitHi, mm_xor_si128, Gf2p127.mk.injEq]
  constructor <;> rw [xor_shiftRight_distrib, xor_mod_two_pow]

theorem reduceN_xor (m n : Nat) : reduceN (m ^^^ n) = reduceN m ^^^ reduceN n := by
  rw [reduceN, splitLo_xor, splitHi_xor, gf2p127_mul_reduce_xor, gfVal_xor]
  rfl

set_option maxRecDepth 100000 in
theorem reduceN_basis : ∀ k, k < 254 → reduceN (2^k) = polyModF (2^k) := by decide

theorem linear_eq_on_of_basis (f g : Nat → Nat)
    (hf : ∀ m n, f (m ^^^ n) = f m ^^^ f n)
    (hg : ∀ m n, g (m ^^^ n) = g m ^^^ g n)
    (N : Nat) (hbasis : ∀ k, k < N → f (2^k) = g (2^k)) :
    ∀ n, n < 2^N → f n = g n := by
  intro n
  induction n using Nat.strong_induction_on with
  | _ n ih =>
    intro hn
    rcases Nat.eq_zero_or_pos n with rfl | hn0
    · have hf0 : f 0 = 0 := by
        have h := hf 0 0
        simp only [Nat.xor_self] at h
        exact h
      have hg0 : g 0 = 0 := by
        have h := hg 0 0
        simp only [Nat.xor_self] at h
        exact h
      rw [hf0, hg0]
    · obtain ⟨i, hti, hhi⟩ := Nat.exists_most_significant_bit (Nat.pos_iff_ne_zero.mp hn0)
      have hiN : i < N := by
        by_contra hge
        push_neg at hge
        have h1 : 2^i ≤ n := two_pow_le_of_testBit hti
        have h2 : (2:Nat)^N ≤ 2^i := Nat.pow_le_pow_right (by norm_num) hge
        omega
      have hm_pow : n ^^^ 2^i < 2^i := by
        apply lt_two_pow_of_high_bits_false
        intro j hj
        rw [Nat.testBit_xor, Nat.testBit_two_pow]
        rcases Nat.eq_or_lt_of_le hj with rfl | hj'
        · simp [hti]
        · simp [hhi j hj', show i ≠ j by omega]
      have hm_lt : n ^^^ 2^i < n := by
        have := two_pow_le_of_testBit hti
        omega
      have hrecomb : (n ^^^ 2^i) ^^^ 2^i = n := by
        rw [Nat.xor_assoc, Nat.xor_self, Nat.xor_zero]
      have hm_N : n ^^^ 2^i < 2^N := by
        have : (2:Nat)^i ≤ 2^N := Nat.pow_le_pow_right (by norm_num) (by omega)
        omega
      calc f n = f ((n ^^^ 2^i) ^^^ 2^i) := by rw [hrecomb]
      _ = f (n ^^^ 2^i) ^^^ f (2^i) := hf _ _
      _ = g (n ^^^ 2^i) ^^^ g (2^i) := by rw [ih _ hm_lt hm_N, hbasis i hiN]
      _ = g ((n ^^^ 2^i) ^^^ 2^i) := (hg _ _).symm
      _ = g n := by rw [hrecomb]

theorem reduceN_eq_polyModF {n : Nat} (hn : n < 2^254) : reduceN n = polyModF n :=
  linear_eq_on_of_basis reduceN polyModF reduceN_xor polyModF_xor 254 reduceN_basis n hn

/-! Relating the reduction stage and the Karatsuba stage to values. -/

theorem shiftLeft_shiftRight_cancel (x k : Nat) : (x <<< k) >>> k = x := by
  rw [Nat.shiftLeft_eq, Nat.shiftRight_eq_div_pow]
  exact Nat.mul_div_cancel x (Nat.pos_pow_of_pos k (by norm_num))

theorem shiftLeft_shiftRight_of_le (x k j : Nat) (h : j ≤ k) :
    (x <<< k) >>> j = x <<< (k - j) := by
  have h1 : x <<< k = (x <<< (k - j)) <<< j := by
    rw [← Nat.shiftLeft_add]
    congr 1
    omega
  rw [h1, shiftLeft_shiftRight_cancel]

theorem shiftLeft_shiftRight_of_ge (x k j : Nat) (h : k ≤ j) :
    (x <<< k) >>> j = x >>> (j - k) := by
  have h1 : (x <<< k) >>> j = ((x <<< k) >>> k) >>> (j - k) := by
    rw [← Nat.shiftRight_add]
    congr 1
    omega
  rw [h1, shiftLeft_shiftRight_cancel]

theorem shiftLeft_128_mod_64 (x : Nat) : (x <<< 128) % 2^64 = 0 := by
  rw [Nat.shiftLeft_eq]
  have h : (2:Nat)^128 = 2^64 * 2^64 := by norm_num
  rw [h, ← Nat.mul_assoc, Nat.mul_mod_left]

theorem splitLo_of_val {lo hi : Gf2p127} (hlo : gfWF lo) (hhi : gfWF hi) :
    splitLo (gfVal lo ^^^ (gfVal hi) <<< 128) = lo := by
  apply gf_ext
  · show (gfVal lo ^^^ (gfVal hi) <<< 128) % 2^64 = lo.lo
    rw [xor_mod_two_pow, shiftLeft_128_mod_64, Nat.xor_zero, ← gfVal_lo hlo]
  · show (gfVal lo ^^^ (gfVal hi) <<< 128) >>> 64 % 2^64 = lo.hi
    rw [xor_shiftRight_distrib, shiftLeft_shiftRight_of_le _ 128 64 (by norm_num)]
    rw [xor_mod_two_pow]
    have h1 : ((gfVal hi) <<< (128 - 64)) % 2^64 = 0 := by
      have : (128:Nat) - 64 = 64 := by norm_num
      rw [this, Nat.shiftLeft_eq, Nat.mul_mod_left]
    rw [h1, Nat.xor_zero, ← gfVal_hi hlo, Nat.mod_eq_of_lt hlo.2]

theorem splitHi_of_val {lo hi : Gf2p127} (hlo : gfWF lo) (hhi : gfWF hi) :
    splitHi (gfVal lo ^^^ (gfVal hi) <<< 128) = hi := by
  have hlo128 : gfVal lo >>> 128 = 0 := by
    rw [Nat.shiftRight_eq_div_pow]
    exact Nat.div_eq_of_lt (gfVal_lt hlo)
  apply gf_ext
  · show (gfVal lo ^^^ (gfVal hi) <<< 128) >>> 128 % 2^64 = hi.lo
    rw [xor_shiftRight_distrib, hlo128, Nat.zero_xor, shiftLeft_shiftRight_cancel,
      ← gfVal_lo hhi]
  · show (gfVal lo ^^^ (gfVal hi) <<< 128) >>> 192 % 2^64 = hi.hi
    have hlo192 : gfVal lo >>> 192 = 0 := by
      rw [Nat.shiftRight_eq_div_pow]
      apply Nat.div_eq_of_lt
      calc gfVal lo < 2^128 := gfVal_lt hlo
      _ ≤ 2^192 := Nat.pow_le_pow_right (by norm_num) (by norm_num)
    rw [xor_shiftRight_distrib, hlo192, Nat.zero_xor,
      shiftLeft_shiftRight_of_ge _ 128 192 (by norm_num)]
    have h1 : (192:Nat) - 128 = 64 := by norm_num
    rw [h1, ← gfVal_hi hhi, Nat.mod_eq_of_lt hhi.2]

theorem reduce_val {lo hi : Gf2p127} (hlo : gfWF lo) (hhi : gfWF hi)
    (hbound : gfVal hi < 2^126) :
    gfVal (gf2p127_mul_reduce lo hi) = polyModF (gfVal lo ^^^ (gfVal hi) <<< 128) := by
  have hV : gfVal lo ^^^ (gfVal hi) <<< 128 < 2^254 := by
    apply Nat.xor_lt_two_pow
    · calc gfVal lo < 2^128 := gfVal_lt hlo
      _ ≤ 2^254 := Nat.pow_le_pow_right (by norm_num) (by norm_num)
    · rw [Nat.shiftLeft_eq]
      have h1 : (2:Nat)^254 = 2^126 * 2^128 := by rw [← Nat.pow_add]
      rw [h1]
      exact Nat.mul_lt_mul_of_lt_of_le hbound (le_refl _) (Nat.pos_pow_of_pos _ (by norm_num))
  have h1 : reduceN (gfVal lo ^^^ (gfVal hi) <<< 128) = gfVal (gf2p127_mul_reduce lo hi) := by
    rw [reduceN, splitLo_of_val hlo hhi, splitHi_of_val hlo hhi]
  rw [← h1]
  exact reduceN_eq_polyModF hV

theorem gfVal_slli_si128_8 {x : Gf2p127} (hx : gfWF x) :
    gfVal (mm_slli_si128_8 x) = ((gfVal x) % 2^64) <<< 64 := by
  show (0:Nat) ^^^ (x.lo % 2^64) <<< 64 = ((gfVal x) % 2^64) <<< 64
  rw [Nat.zero_xor, Nat.mod_eq_of_lt hx.1, gfVal_lo hx]

theorem gfVal_srli_si128_8 {x : Gf2p127} (hx : gfWF x) :
    gfVal (mm_srli_si128_8 x) = (gfVal x) >>> 64 := by
  show (x.hi % 2^64) ^^^ (0:Nat) <<< 64 = (gfVal x) >>> 64
  rw [Nat.zero_shiftLeft, Nat.xor_zero, Nat.mod_eq_of_lt hx.2, gfVal_hi hx]

theorem mod_shl_xor_shl (t : Nat) : (t % 2^64) <<< 64 ^^^ (t >>> 64) <<< 128 = t <<< 64 := by
  have h := congrArg (fun z => z <<< 64) (split_two_pow t 64)
  simp only [xor_shiftLeft_distrib, ← Nat.shiftLeft_add] at h
  have h2 : (64:Nat) + 64 = 128 := by norm_num
  rw [h2] at h
  exact h

theorem xor_regroupA (p m q s : Nat) : (p ^^^ m) ^^^ (q ^^^ s) = p ^^^ (m ^^^ s) ^^^ q := by
  ac_rfl

theorem xor_regroupB (p q r s : Nat) : p ^^^ q ^^^ (r ^^^ s) = p ^^^ (q ^^^ r) ^^^ s := by
  ac_rfl

theorem xor_cancel4 (p q r s : Nat) : (p ^^^ q) ^^^ (r ^^^ s) ^^^ (p ^^^ s) = q ^^^ r := by
  have h : (p ^^^ q) ^^^ (r ^^^ s) ^^^ (p ^^^ s) = (p ^^^ p) ^^^ (s ^^^ s) ^^^ (q ^^^ r) := by
    ac_rfl
  rw [h, Nat.xor_self, Nat.xor_self, Nat.zero_xor, Nat.zero_xor]

theorem clmul128_expand {a b : Gf2p127} (ha : gfWF a) (hb : gfWF b) :
    clmul128 (gfVal a) (gfVal b)
      = clmulAux 64 a.lo b.lo
          ^^^ (clmulAux 64 a.lo b.hi ^^^ clmulAux 64 a.hi b.lo) <<< 64
          ^^^ clmulAux 64 a.hi b.hi <<< 128 := by
  rw [clmul128, gfVal, gfVal]
  rw [clmulAux_xor_left]
  rw [clmulAux_xor_right]
  rw [clmulAux_shiftLeft_right]
  rw [clmulAux_shiftLeft_left 64 64 128 a.hi _ ha.2 (by norm_num)]
  rw [clmulAux_xor_right]
  rw [clmulAux_shiftLeft_right]
  rw [← clmulAux_fuel_mono 64 ha.1 (by norm_num) b.lo]
  rw [← clmulAux_fuel_mono 64 ha.1 (by norm_num) b.hi]
  rw [xor_shiftLeft_distrib]
  rw [← Nat.shiftLeft_add]
  have h2 : (64:Nat) + 64 = 128 := by norm_num
  rw [h2]
  rw [xor_shiftLeft_distrib (clmulAux 64 a.lo b.hi) (clmulAux 64 a.hi b.lo) 64]
  apply xor_regroupB

theorem kar_tmp0_lo {a b : Gf2p127} (ha : gfWF a) : (kar_tmp0 a b).lo = a.lo ^^^ a.hi := by
  show a.lo % 2^64 ^^^ a.hi % 2^64 = a.lo ^^^ a.hi
  rw [Nat.mod_eq_of_lt ha.1, Nat.mod_eq_of_lt ha.2]

theorem kar_tmp0_hi {a b : Gf2p127} (hb : gfWF b) : (kar_tmp0 a b).hi = b.lo ^^^ b.hi := by
  show b.lo % 2^64 ^^^ b.hi % 2^64 = b.lo ^^^ b.hi
  rw [Nat.mod_eq_of_lt hb.1, Nat.mod_eq_of_lt hb.2]

theorem kar_mid_val {a b : Gf2p127} (ha : gfWF a) (hb : gfWF b) :
    gfVal (kar_mid a b)
      = clmulAux 64 a.lo b.hi ^^^ clmulAux 64 a.hi b.lo := by
  rw [kar_mid, gfVal_xor, gfVal_xor]
  rw [mm_clmul_spec, mm_clmul_spec, mm_clmul_spec]
  rw [if_neg (by norm_num), if_pos (by norm_num)]
  rw [if_neg (by norm_num), if_neg (by norm_num)]
  rw [if_pos (by norm_num), if_pos (by norm_num)]
  rw [kar_tmp0_lo ha, kar_tmp0_hi hb]
  rw [Nat.mod_eq_of_lt (Nat.xor_lt_two_pow ha.1 ha.2)]
  rw [Nat.mod_eq_of_lt (Nat.xor_lt_two_pow hb.1 hb.2)]
  rw [Nat.mod_eq_of_lt ha.1, Nat.mod_eq_of_lt ha.2,
    Nat.mod_eq_of_lt hb.1, Nat.mod_eq_of_lt hb.2]
  rw [clmulAux_xor_left]
  rw [clmulAux_xor_right, clmulAux_xor_right]
  apply xor_cancel4

theorem gfWF_kar_mid (a b : Gf2p127) : gfWF (kar_mid a b) :=
  gfWF_xor (gfWF_clmul _ _ _) (gfWF_xor (gfWF_clmul _ _ _) (gfWF_clmul _ _ _))

theorem kar_correct {a b : Gf2p127} (ha : gfWF a) (hb : gfWF b) :
    gfVal (kar_lo a b) ^^^ (gfVal (kar_hi a b)) <<< 128
      = clmul128 (gfVal a) (gfVal b) := by
  have hv00 : gfVal (mm_clmulepi64_si128 a b 0x00) = clmulAux 64 a.lo b.lo := by
    rw [mm_clmul_spec, if_neg (by norm_num), if_neg (by norm_num),
      Nat.mod_eq_of_lt ha.1, Nat.mod_eq_of_lt hb.1]
  have hv11 : gfVal (mm_clmulepi64_si128 a b 0x11) = clmulAux 64 a.hi b.hi := by
    rw [mm_clmul_spec, if_pos (by norm_num), if_pos (by norm_num),
      Nat.mod_eq_of_lt ha.2, Nat.mod_eq_of_lt hb.2]
  have hlo : gfVal (kar_lo a b)
      = clmulAux 64 a.lo b.lo ^^^ ((gfVal (kar_mid a b)) % 2^64) <<< 64 := by
    rw [kar_lo, gfVal_xor, hv00, gfVal_slli_si128_8 (gfWF_kar_mid a b)]
  have hhi : gfVal (kar_hi a b)
      = clmulAux 64 a.hi b.hi ^^^ (gfVal (kar_mid a b)) >>> 64 := by
    rw [kar_hi, gfVal_xor, hv11, gfVal_srli_si128_8 (gfWF_kar_mid a b)]
  rw [hlo, hhi, xor_shiftLeft_distrib, xor_regroupA, mod_shl_xor_shl]
  rw [kar_mid_val ha hb, clmul128_expand ha hb]

theorem gfCanon_wf {a : Gf2p127} (h : gfCanon a) : gfWF a :=
  ⟨h.1, lt_trans h.2 (by norm_num)⟩

theorem gfWF_kar_lo (a b : Gf2p127) : gfWF (kar_lo a b) :=
  gfWF_xor (gfWF_clmul _ _ _) (gfWF_slli_si128_8 _)

theorem gfWF_kar_hi (a b : Gf2p127) : gfWF (kar_hi a b) :=
  gfWF_xor (gfWF_clmul _ _ _) (gfWF_srli_si128_8 _)

theorem gfWF_reduce {lo hi : Gf2p127} (hlo : gfWF lo) :
    gfWF (gf2p127_mul_reduce lo hi) :=
  gfWF_xor
    (gfWF_xor (gfWF_xor (gfWF_xor hlo (gfWF_slli_epi64 _ _)) (gfWF_unpackhi _ _))
      (gfWF_srli_epi64 _ _))
    (gfWF_slli_epi64 _ _)

theorem gfWF_mul (a b : Gf2p127) : gfWF (gf2p127_mul a b) :=
  gfWF_reduce (gfWF_kar_lo a b)

theorem kar_hi_val_lt {a b : Gf2p127} (ha : gfCanon a) (hb : gfCanon b) :
    gfVal (kar_hi a b) < 2^126 := by
  have hhi : gfVal (kar_hi a b)
      = clmulAux 64 a.hi b.hi ^^^ (gfVal (kar_mid a b)) >>> 64 := by
    rw [kar_hi, gfVal_xor, gfVal_srli_si128_8 (gfWF_kar_mid a b)]
    rw [mm_clmul_spec, if_pos (by norm_num), if_pos (by norm_num),
      Nat.mod_eq_of_lt (gfCanon_wf ha).2, Nat.mod_eq_of_lt (gfCanon_wf hb).2]
  rw [hhi]
  apply Nat.xor_lt_two_pow
  · have := clmulAux_lt 64 ha.2 hb.2
    simpa using this
  · have h1 : (gfVal (kar_mid a b)) >>> 64 < 2^64 := by
      rw [Nat.shiftRight_eq_div_pow]
      have h2 : gfVal (kar_mid a b) < 2^128 := gfVal_lt (gfWF_kar_mid a b)
      have h3 : (2:Nat)^128 = 2^64 * 2^64 := by norm_num
      exact Nat.div_lt_of_lt_mul (by rw [← h3]; exact h2)
    calc (gfVal (kar_mid a b)) >>> 64 < 2^64 := h1
    _ ≤ 2^126 := Nat.pow_le_pow_right (by norm_num) (by norm_num)

theorem gf2p127_mul_val {a b : Gf2p127} (ha : gfCanon a) (hb : gfCanon b) :
    gfVal (gf2p127_mul a b) = polyModF (clmul128 (gfVal a) (gfVal b)) := by
  rw [gf2p127_mul,
    reduce_val (gfWF_kar_lo a b) (gfWF_kar_hi a b) (kar_hi_val_lt ha hb),
    kar_correct (gfCanon_wf ha) (gfCanon_wf hb)]

theorem clmul128_lt {a b : Gf2p127} (ha : gfCanon a) (hb : gfCanon b) :
    clmul128 (gfVal a) (gfVal b) < 2^254 := by
  have := clmulAux_lt 128 (gfVal_lt_of_canon ha) (gfVal_lt_of_canon hb)
  simpa using this

theorem canon_of_wf_val_lt {x : Gf2p127} (hwf : gfWF x) (h : gfVal x < 2^127) :
    gfCanon x := by
  refine ⟨hwf.1, ?_⟩
  have h1 : x.hi = gfVal x >>> 64 := gfVal_hi hwf
  rw [h1, Nat.shiftRight_eq_div_pow]
  apply Nat.div_lt_of_lt_mul
  have h2 : (2:Nat)^64 * 2^63 = 2^127 := by norm_num
  rw [h2]
  exact h

theorem gf2p127_mul_canon {a b : Gf2p127} (ha : gfCanon a) (hb : gfCanon b) :
    gfCanon (gf2p127_mul a b) := by
  apply canon_of_wf_val_lt (gfWF_mul a b)
  rw [gf2p127_mul_val ha hb]
  exact polyModF_lt (clmul128_lt ha hb)

theorem mod_mod_64 (x : Nat) : x % 2^64 % 2^64 = x % 2^64 := Nat.mod_mod_of_dvd x dvd_rfl

theorem shiftRight63_eq {x : Nat} (hx : x < 2^64) : x >>> 63 = if x.testBit 63 then 1 else 0 := by
  have h1 : x >>> 63 = x / 2^63 := Nat.shiftRight_eq_div_pow x 63
  have h2 : x / 2^63 < 2 := by
    apply Nat.div_lt_of_lt_mul
    have h3 : (2:Nat)^63 * 2 = 2^64 := by norm_num
    rw [h3]
    exact hx
  have h3 : x.testBit 63 = decide (x / 2^63 % 2 = 1) := Nat.testBit_to_div_mod
  rcases (by omega : x / 2^63 = 0 ∨ x / 2^63 = 1) with hv | hv
  · have ht : x.testBit 63 = false := by
      rw [h3, hv]
      decide
    rw [h1, hv, ht]
    decide
  · have ht : x.testBit 63 = true := by
      rw [h3, hv]
      decide
    rw [h1, hv, ht]
    decide

theorem mul_10_lanes {a : Gf2p127} (h : gfWF a) :
    gf2p127_mul_10 a =
      ⟨((a.lo <<< 1) % 2^64) ^^^ (if a.hi.testBit 62 then 2^63 + 1 else 0),
       (((a.hi <<< 1) % 2^64) ||| (a.lo >>> 63)) ^^^ (if a.hi.testBit 62 then 2^63 else 0)⟩ := by
  have hB : (a.hi <<< 1 % 2^64) >>> 63 = if a.hi.testBit 62 then 1 else 0 := by
    rw [shiftRight63_eq (Nat.mod_lt _ (by norm_num))]
    have ht : (a.hi <<< 1 % 2^64).testBit 63 = a.hi.testBit 62 := by
      rw [Nat.testBit_mod_two_pow, Nat.testBit_shiftLeft]
      norm_num
    rw [ht]
  simp only [gf2p127_mul_10, mm_slli_epi64, mm_srli_epi64, mm_or_si128, mm_slli_si128_8,
    mm_xor_si128, mm_shuffle_epi32, dword, Gf2p127.mk.injEq]
  rw [Nat.mod_eq_of_lt h.1, Nat.mod_eq_of_lt h.2]
  simp only [mod_mod_64]
  have hsr : a.lo >>> 63 % 2^64 = a.lo >>> 63 := by
    apply Nat.mod_eq_of_lt
    rw [Nat.shiftRight_eq_div_pow]
    exact lt_of_le_of_lt (Nat.div_le_self _ _) h.1
  rw [hB, hsr]
  cases htb : a.hi.testBit 62
  · simp [Nat.shiftLeft_eq, Nat.xor_assoc]
  · simp [Nat.shiftLeft_eq, Nat.xor_assoc]

theorem gfVal_mk (X Y : Nat) : gfVal ⟨X, Y⟩ = X ^^^ Y <<< 64 := rfl

theorem or_disjoint_hi (a : Gf2p127) (h : gfWF a) :
    (a.hi <<< 1 % 2^64) ||| (a.lo >>> 63) = (a.hi <<< 1 % 2^64) ^^^ (a.lo >>> 63) := by
  apply or_eq_xor_of_and_eq_zero
  apply Nat.eq_of_testBit_eq
  intro i
  rw [Nat.testBit_and, Nat.zero_testBit]
  rcases Nat.eq_zero_or_pos i with rfl | hi
  · have h1 : (a.hi <<< 1 % 2^64).testBit 0 = false := by
      rw [Nat.testBit_mod_two_pow, Nat.testBit_shiftLeft]
      norm_num
    rw [h1, Bool.false_and]
  · have h2 : (a.lo >>> 63).testBit i = false := by
      rw [Nat.testBit_shiftRight]
      apply Nat.testBit_lt_two_pow
      calc a.lo < 2^64 := h.1
      _ ≤ 2^(63+i) := Nat.pow_le_pow_right (by norm_num) (by omega)
    rw [h2, Bool.and_false]

theorem xor_regroupC (x p q : Nat) : x ^^^ (p ^^^ q) = (x ^^^ q) ^^^ p := by
  ac_rfl

theorem xor_regroupD (x c1 p q c2 : Nat) :
    x ^^^ c1 ^^^ (p ^^^ q ^^^ c2) = ((x ^^^ q) ^^^ p) ^^^ (c1 ^^^ c2) := by
  ac_rfl

theorem two_mul_val {a : Gf2p127} : 2 * gfVal a = a.lo <<< 1 ^^^ (a.hi <<< 1) <<< 64 := by
  rw [gfVal, two_mul_xor]
  have h1 : ∀ x : Nat, 2 * x = x <<< 1 := by
    intro x
    rw [Nat.shiftLeft_succ, Nat.shiftLeft_zero]
  rw [h1, h1, ← Nat.shiftLeft_add]
  have h2 : (64:Nat) + 1 = 1 + 64 := by norm_num
  rw [h2, Nat.shiftLeft_add]

theorem mul_10_val {a : Gf2p127} (h : gfCanon a) :
    gfVal (gf2p127_mul_10 a)
      = if (gfVal a).testBit 126 then 2 * gfVal a ^^^ fN else 2 * gfVal a := by
  have hwf := gfCanon_wf h
  have ht126 : (gfVal a).testBit 126 = a.hi.testBit 62 := by
    rw [gfVal, Nat.testBit_xor, Nat.testBit_shiftLeft]
    have h1 : a.lo.testBit 126 = false := by
      apply Nat.testBit_lt_two_pow
      calc a.lo < 2^64 := hwf.1
      _ ≤ 2^126 := Nat.pow_le_pow_right (by norm_num) (by norm_num)
    rw [h1]
    norm_num
  have hhi1 : a.hi <<< 1 % 2^64 = a.hi <<< 1 := by
    apply Nat.mod_eq_of_lt
    rw [Nat.shiftLeft_eq]
    have h2 := h.2
    have h3 : (2:Nat)^63 * 2^1 = 2^64 := by norm_num
    calc a.hi * 2^1 < 2^63 * 2^1 := by omega
    _ = 2^64 := h3
  have hsplit := shiftLeft_split a.lo 1 64 (by norm_num)
  simp only [show (64:Nat) - 1 = 63 from rfl] at hsplit
  rw [mul_10_lanes hwf]
  rw [gfVal_mk]
  rw [or_disjoint_hi a hwf, hhi1, ht126]
  cases htb : a.hi.testBit 62
  · simp only [if_neg (by simp : ¬ (false = true))]
    rw [Nat.xor_zero, Nat.xor_zero, xor_shiftLeft_distrib, xor_regroupC, hsplit, two_mul_val]
  · simp only [if_pos (rfl : (true = true))]
    simp only [if_true]
    have h127 : (2^63 : Nat) <<< 64 = 2^127 := by
      rw [Nat.shiftLeft_eq]
      norm_num
    have hfn : (2^63 + 1 : Nat) ^^^ 2^127 = fN := by decide
    rw [xor_shiftLeft_distrib, xor_shiftLeft_distrib, h127, xor_regroupD, hsplit, hfn,
      two_mul_val]

theorem clmulAux_zero_right (f x : Nat) : clmulAux f x 0 = 0 := by
  induction f generalizing x with
  | zero => rfl
  | succ f ih =>
    rw [clmulAux, ih]
    rcases Nat.mod_two_eq_zero_or_one x with h | h <;> simp [h]

theorem two_mul_xor_one (k : Nat) : 2 * k ^^^ 1 = 2 * k + 1 := by
  apply Nat.eq_of_testBit_eq
  intro i
  rcases Nat.eq_zero_or_pos i with rfl | hi
  · rw [Nat.testBit_xor, Nat.testBit_zero, Nat.testBit_zero, Nat.testBit_zero]
    simp [Nat.mul_mod_right, Nat.add_mod]
  · obtain ⟨j, rfl⟩ : ∃ j, i = j + 1 := ⟨i - 1, by omega⟩
    rw [Nat.testBit_xor]
    have h1 : (1:Nat).testBit (j+1) = false := by
      apply Nat.testBit_lt_two_pow
      calc (1:Nat) < 2 := by norm_num
      _ = 2^1 := by norm_num
      _ ≤ 2^(j+1) := Nat.pow_le_pow_right (by norm_num) (by omega)
    rw [h1, Bool.xor_false]
    rw [Nat.testBit_succ, Nat.testBit_succ]
    have h2 : 2 * k / 2 = k := by omega
    have h3 : (2 * k + 1) / 2 = k := by omega
    rw [h2, h3]

theorem clmulAux_one_right : ∀ (f : Nat) {x : Nat}, x < 2^f → clmulAux f x 1 = x := by
  intro f
  induction f with
  | zero => intro x hx; interval_cases x; rfl
  | succ f ih =>
    intro x hx
    have hx2 : x / 2 < 2^f := by rw [Nat.pow_succ] at hx; omega
    rw [clmulAux, ih hx2]
    rcases Nat.mod_two_eq_zero_or_one x with h | h
    · rw [if_neg (by omega), Nat.zero_xor]
      omega
    · rw [if_pos h, Nat.xor_comm, two_mul_xor_one]
      omega

theorem clmulAux_two_right {f x : Nat} (hx : x < 2^f) : clmulAux f x 2 = 2 * x := by
  have h2 : clmulAux f x (1 <<< 1) = (clmulAux f x 1) <<< 1 := clmulAux_shiftLeft_right f x 1 1
  rw [clmulAux_one_right f hx] at h2
  have h3 : (1:Nat) <<< 1 = 2 := rfl
  rw [h3] at h2
  rw [h2, Nat.shiftLeft_succ, Nat.shiftLeft_zero]

theorem clmulAux_three_right {f x : Nat} (hx : x < 2^f) : clmulAux f x 3 = x ^^^ 2 * x := by
  have h1 : (3:Nat) = 1 ^^^ 2 := rfl
  rw [h1, clmulAux_xor_right, clmulAux_one_right f hx, clmulAux_two_right hx]

theorem gfWF_mul_10 {a : Gf2p127} (h : gfWF a) : gfWF (gf2p127_mul_10 a) := by
  rw [mul_10_lanes h]
  constructor
  · apply Nat.xor_lt_two_pow (Nat.mod_lt _ (by norm_num))
    split <;> norm_num
  · apply Nat.xor_lt_two_pow
    · apply Nat.or_lt_two_pow (Nat.mod_lt _ (by norm_num))
      rw [Nat.shiftRight_eq_div_pow]
      exact lt_of_le_of_lt (Nat.div_le_self _ _) h.1
    · split <;> norm_num

theorem mul_10_bit127 {a : Gf2p127} (h : gfWF a) :
    (gfVal (gf2p127_mul_10 a)).testBit 127 = false := by
  rw [mul_10_lanes h, gfVal_mk, Nat.testBit_xor]
  have hlo : ((a.lo <<< 1) % 2^64 ^^^ if a.hi.testBit 62 then 2^63 + 1 else 0).testBit 127
      = false := by
    apply Nat.testBit_lt_two_pow
    apply lt_of_lt_of_le _ (show (2:Nat)^64 ≤ 2^127 from Nat.pow_le_pow_right (by norm_num) (by norm_num))
    apply Nat.xor_lt_two_pow (Nat.mod_lt _ (by norm_num))
    split <;> norm_num
  rw [hlo, Bool.false_xor, Nat.testBit_shiftLeft]
  have h127 : (127:Nat) - 64 = 63 := by norm_num
  rw [h127]
  have hb : ((a.hi <<< 1 % 2^64 ||| a.lo >>> 63) ^^^
      (if a.hi.testBit 62 then 2^63 else 0)).testBit 63 = false := by
    rw [Nat.testBit_xor, Nat.testBit_or]
    have h1 : (a.hi <<< 1 % 2^64).testBit 63 = a.hi.testBit 62 := by
      rw [Nat.testBit_mod_two_pow, Nat.testBit_shiftLeft]
      norm_num
    have h2 : (a.lo >>> 63).testBit 63 = false := by
      rw [Nat.testBit_shiftRight]
      apply Nat.testBit_lt_two_pow
      calc a.lo < 2^64 := h.1
      _ ≤ 2^(63+63) := Nat.pow_le_pow_right (by norm_num) (by norm_num)
    have h3 : (if a.hi.testBit 62 then (2:Nat)^63 else 0).testBit 63 = a.hi.testBit 62 := by
      cases htb : a.hi.testBit 62
      · rw [if_neg (by simp), Nat.zero_testBit]
      · rw [if_pos rfl, Nat.testBit_two_pow]
        simp
    rw [h1, h2, h3, Bool.or_false]
    cases htb : a.hi.testBit 62 <;> rfl
  rw [hb, Bool.and_false]

theorem strConcat_nil : strConcat [] = "" := rfl

theorem strConcat_cons (x : String) (l : List String) :
    strConcat (x :: l) = x ++ strConcat l := rfl

theorem str_empty_append (s : String) : "" ++ s = s := by
  cases s
  rfl

theorem showLoop_spec :
    ∀ (fuel k b : Nat), showLoop fuel k (b >>> k)
      = strConcat (((List.range' k fuel).filter (fun j => b.testBit j)).map
          (fun j => " + 2^" ++ Nat.repr j)) := by
  intro fuel
  induction fuel with
  | zero => intro k b; rfl
  | succ fuel ih =>
    intro k b
    rw [showLoop]
    have hdiv : b >>> k / 2 = b >>> (k+1) := (Nat.shiftRight_succ b k).symm
    have hmod : (b >>> k % 2 = 1) ↔ (b.testBit k = true) := by
      rw [Nat.shiftRight_eq_div_pow, Nat.testBit_to_div_mod]
      simp
    rw [hdiv, ih (k+1) b, List.range'_succ]
    cases htb : b.testBit k
    · rw [if_neg (by rw [hmod, htb]; simp)]
      rw [List.filter_cons_of_neg (by simp [htb])]
      rw [str_empty_append]
    · rw [if_pos (hmod.mpr htb)]
      rw [List.filter_cons_of_pos (by simp [htb])]
      rw [List.map_cons, strConcat_cons]

theorem gf2p127_show_spec (m : Gf2p127) :
    gf2p127_show m
      = (if (gfVal m).testBit 0 then "1" else "0")
        ++ strConcat (((List.range' 1 127).filter (fun j => (gfVal m).testBit j)).map
            (fun j => " + 2^" ++ Nat.repr j)) := by
  rw [gf2p127_show]
  have h1 : gfVal m / 2 = gfVal m >>> 1 := by
    rw [Nat.shiftRight_succ, Nat.shiftRight_zero]
  have h2 : (gfVal m % 2 = 1) ↔ ((gfVal m).testBit 0 = true) := by
    rw [Nat.testBit_zero]
    simp
  rw [h1, showLoop_spec 127 1 (gfVal m)]
  cases htb : (gfVal m).testBit 0
  · rw [if_neg (by rw [h2, htb]; simp), if_neg (by simp)]
  · rw [if_pos (h2.mpr htb), if_pos rfl]

theorem toHexAux_length : ∀ (f n : Nat), (toHexAux f n).length = f := by
  intro f
  induction f with
  | zero => intro n; rfl
  | succ f ih =>
    intro n
    rw [toHexAux, List.length_append, ih]
    rfl

theorem hexDigitVal_hexChar : ∀ d, d < 16 → hexDigitVal (hexChar d) = d := by decide

theorem parse_toHex :
    ∀ (f : Nat) {n : Nat} (acc : Nat), n < 16^f →
      (toHexAux f n).foldl (fun acc c => 16 * acc + hexDigitVal c) acc = acc * 16^f + n := by
  intro f
  induction f with
  | zero =>
    intro n acc hn
    have : n = 0 := by
      have := Nat.pow_zero 16
      omega
    simp [toHexAux, this]
  | succ f ih =>
    intro n acc hn
    have hn2 : n / 16 < 16^f := by
      apply Nat.div_lt_of_lt_mul
      rw [← Nat.pow_succ']
      exact hn
    rw [toHexAux, List.foldl_append, ih acc hn2]
    have hd : hexDigitVal (hexChar (n % 16)) = n % 16 :=
      hexDigitVal_hexChar _ (Nat.mod_lt _ (by norm_num))
    show 16 * (acc * 16^f + n / 16) + hexDigitVal (hexChar (n % 16)) = acc * 16^(f+1) + n
    rw [hd, Nat.pow_succ, ← Nat.mul_assoc]
    have hB : 16 * (n / 16) + n % 16 = n := by omega
    have hgen : ∀ B : Nat, 16 * (B + n / 16) + n % 16 = B * 16 + n := by
      intro B
      omega
    exact hgen (acc * 16^f)

theorem gf2p127_hex_data (m : Gf2p127) :
    (gf2p127_hex m).data = toHexAux 16 (m.hi % 2^64) ++ toHexAux 16 (m.lo % 2^64) := rfl

theorem gf2p127_hex_length {m : Gf2p127} : (gf2p127_hex m).length = 32 := by
  have h : (gf2p127_hex m).length = ((gf2p127_hex m).data).length := rfl
  rw [h, gf2p127_hex_data, List.length_append, toHexAux_length, toHexAux_length]

theorem parse_hex_append (l1 l2 : List Char) (h : l1.length = 16) :
    gf2p127_parse_hex ⟨l1 ++ l2⟩ = ⟨parseHexDigits l2, parseHexDigits l1⟩ := by
  have hdata : (⟨l1 ++ l2⟩ : String).data = l1 ++ l2 := rfl
  rw [gf2p127_parse_hex, hdata, ← h, List.drop_left, List.take_left]

theorem parseHex_toHexAux16 {n : Nat} (hn : n < 2^64) :
    parseHexDigits (toHexAux 16 (n % 2^64)) = n := by
  have h0 : n % 2^64 < 16^16 := by
    have h1 : (16:Nat)^16 = 2^64 := by norm_num
    rw [h1]
    exact Nat.mod_lt _ (by norm_num)
  rw [parseHexDigits, parse_toHex 16 0 h0, Nat.zero_mul, Nat.zero_add, Nat.mod_eq_of_lt hn]

theorem gf2p127_hex_roundtrip {m : Gf2p127} (h : gfWF m) :
    gf2p127_parse_hex (gf2p127_hex m) = m := by
  obtain ⟨mlo, mhi⟩ := m
  have h1 : mlo < 2^64 := h.1
  have h2 : mhi < 2^64 := h.2
  have hexm : gf2p127_hex ⟨mlo, mhi⟩
      = ⟨toHexAux 16 (mhi % 2^64) ++ toHexAux 16 (mlo % 2^64)⟩ := rfl
  rw [hexm, parse_hex_append _ _ (toHexAux_length 16 _)]
  have e1 : parseHexDigits (toHexAux 16 (mlo % 2^64)) = mlo := parseHex_toHexAux16 h1
  have e2 : parseHexDigits (toHexAux 16 (mhi % 2^64)) = mhi := parseHex_toHexAux16 h2
  rw [e1, e2]

theorem gfVal_add (a b : Gf2p127) : gfVal (gf2p127_add a b) = gfVal a ^^^ gfVal b :=
  gfVal_xor a b

theorem gfWF_add {a b : Gf2p127} (ha : gfWF a) (hb : gfWF b) : gfWF (gf2p127_add a b) :=
  gfWF_xor ha hb

theorem gfCanon_add {a b : Gf2p127} (ha : gfCanon a) (hb : gfCanon b) :
    gfCanon (gf2p127_add a b) :=
  ⟨Nat.xor_lt_two_pow ha.1 hb.1, Nat.xor_lt_two_pow ha.2 hb.2⟩

theorem clmul128_def (x y : Nat) : clmul128 x y = clmulAux 128 x y := rfl

theorem from_int_val {v : Nat} (h : v < 2^32) : gfVal (gf2p127_from_int v) = v := by
  show v % 2^32 ^^^ (0:Nat) <<< 64 = v
  rw [Nat.zero_shiftLeft, Nat.xor_zero, Nat.mod_eq_of_lt h]

theorem toHexAux_mem :
    ∀ (f n : Nat) (c : Char), c ∈ toHexAux f n → ∃ d, d < 16 ∧ c = hexChar d := by
  intro f
  induction f with
  | zero => intro n c hc; cases hc
  | succ f ih =>
    intro n c hc
    rw [toHexAux, List.mem_append] at hc
    rcases hc with hc | hc
    · exact ih (n / 16) c hc
    · rw [List.mem_singleton] at hc
      exact ⟨n % 16, Nat.mod_lt _ (by norm_num), hc⟩

theorem mul_bit_spec {a : Gf2p127} (h : gfWF a) :
    gf2p127_mul_bit a false = gf2p127_zero ∧ gf2p127_mul_bit a true = a := by
  constructor
  · apply gf_ext
    · show ((a.lo % 2^64) <<< ((if false then 0 else 1) * 64)) % 2^64 = (0:Nat)
      rw [show (if false then 0 else 1) * 64 = 64 from rfl, Nat.shiftLeft_eq, Nat.mul_mod_left]
    · show ((a.hi % 2^64) <<< ((if false then 0 else 1) * 64)) % 2^64 = (0:Nat)
      rw [show (if false then 0 else 1) * 64 = 64 from rfl, Nat.shiftLeft_eq, Nat.mul_mod_left]
  · apply gf_ext
    · show ((a.lo % 2^64) <<< ((if true then 0 else 1) * 64)) % 2^64 = a.lo
      rw [show (if true then 0 else 1) * 64 = 0 from rfl, Nat.shiftLeft_zero, mod_mod_64,
        Nat.mod_eq_of_lt h.1]
    · show ((a.hi % 2^64) <<< ((if true then 0 else 1) * 64)) % 2^64 = a.hi
      rw [show (if true then 0 else 1) * 64 = 0 from rfl, Nat.shiftLeft_zero, mod_mod_64,
        Nat.mod_eq_of_lt h.2]

/-- C1: for all elements `a`, `b` satisfying the representation invariant
(bit 127 clear, i.e. `gfCanon`), `gf2p127_mul a b` is the unique representative
in `[0, 2^127)` congruent, modulo `f(x) = x^127 + x^63 + 1`, to the carry-less
(GF(2)-polynomial) product of `a` and `b`. -/
theorem claim_C1 (a b : Gf2p127) (ha : gfCanon a) (hb : gfCanon b) :
    gfVal (gf2p127_mul a b) < 2^127
    ∧ congF (gfVal (gf2p127_mul a b)) (clmul128 (gfVal a) (gfVal b))
    ∧ ∀ r, r < 2^127 → congF r (clmul128 (gfVal a) (gfVal b)) →
        r = gfVal (gf2p127_mul a b) := by
  have hval := gf2p127_mul_val ha hb
  have hlt : gfVal (gf2p127_mul a b) < 2^127 := by
    rw [hval]; exact polyModF_lt (clmul128_lt ha hb)
  have hcong : congF (gfVal (gf2p127_mul a b)) (clmul128 (gfVal a) (gfVal b)) := by
    rw [hval]; exact congF_symm (congF_of_polyModF _)
  refine ⟨hlt, hcong, fun r hr hcr => ?_⟩
  exact congF_unique hr hlt (congF_trans hcr (congF_symm hcong))

theorem claim_C1_witness :
    gfCanon ⟨3, 0⟩ ∧ gfCanon ⟨5, 0⟩ ∧
      (gfVal (gf2p127_mul ⟨3, 0⟩ ⟨5, 0⟩) < 2^127
       ∧ congF (gfVal (gf2p127_mul ⟨3, 0⟩ ⟨5, 0⟩))
           (clmul128 (gfVal ⟨3, 0⟩) (gfVal ⟨5, 0⟩))
       ∧ ∀ r, r < 2^127 → congF r (clmul128 (gfVal ⟨3, 0⟩) (gfVal ⟨5, 0⟩)) →
           r = gfVal (gf2p127_mul ⟨3, 0⟩ ⟨5, 0⟩)) :=
  ⟨by decide, by decide, claim_C1 ⟨3, 0⟩ ⟨5, 0⟩ (by decide) (by decide)⟩

/-- C2: for a canonical element `a`, `gf2p127_mul_10 a` is `a` doubled
(every coefficient shifted up one degree, the bit leaving the low half entering
the high half), and, exactly when bit 126 of `a` was set, with 1 XORed into
bit 0 and into bit 63 and the degree-127 bit cleared; in particular on the
element with only bit 126 set it yields the element with bits 0 and 63 set. -/
theorem claim_C2 (a : Gf2p127) (h : gfCanon a) :
    gfVal (gf2p127_mul_10 a)
      = (if (gfVal a).testBit 126
          then 2 * gfVal a ^^^ 2^127 ^^^ 2^63 ^^^ 1
          else 2 * gfVal a)
    ∧ gf2p127_mul_10 ⟨0, 2^62⟩ = ⟨2^63 + 1, 0⟩ := by
  refine ⟨?_, by decide⟩
  rw [mul_10_val h, (by decide : (fN : Nat) = 2^127 ^^^ (2^63 ^^^ 1))]
  simp only [Nat.xor_assoc]

theorem claim_C2_witness :
    gfCanon ⟨0, 2^62⟩ ∧
      (gfVal (gf2p127_mul_10 ⟨0, 2^62⟩)
        = (if (gfVal ⟨0, 2^62⟩).testBit 126
            then 2 * gfVal ⟨0, 2^62⟩ ^^^ 2^127 ^^^ 2^63 ^^^ 1
            else 2 * gfVal ⟨0, 2^62⟩)
       ∧ gf2p127_mul_10 ⟨0, 2^62⟩ = ⟨2^63 + 1, 0⟩) :=
  ⟨by decide, claim_C2 ⟨0, 2^62⟩ (by decide)⟩

/-- C3: for all canonical elements `a`, `b`, bit 127 of `gf2p127_add a b`, of
`gf2p127_mul a b` and of the doubling step `gf2p127_mul_10 a` is 0: every
producing operation preserves the representation invariant. -/
theorem claim_C3 (a b : Gf2p127) (ha : gfCanon a) (hb : gfCanon b) :
    (gfVal (gf2p127_add a b)).testBit 127 = false
    ∧ (gfVal (gf2p127_mul a b)).testBit 127 = false
    ∧ (gfVal (gf2p127_mul_10 a)).testBit 127 = false := by
  refine ⟨?_, ?_, mul_10_bit127 (gfCanon_wf ha)⟩
  · apply Nat.testBit_lt_two_pow
    rw [gfVal_add]
    exact Nat.xor_lt_two_pow (gfVal_lt_of_canon ha) (gfVal_lt_of_canon hb)
  · apply Nat.testBit_lt_two_pow
    rw [gf2p127_mul_val ha hb]
    exact polyModF_lt (clmul128_lt ha hb)

theorem claim_C3_witness :
    gfCanon ⟨1, 2⟩ ∧ gfCanon ⟨3, 4⟩ ∧
      ((gfVal (gf2p127_add ⟨1, 2⟩ ⟨3, 4⟩)).testBit 127 = false
       ∧ (gfVal (gf2p127_mul ⟨1, 2⟩ ⟨3, 4⟩)).testBit 127 = false
       ∧ (gfVal (gf2p127_mul_10 ⟨1, 2⟩)).testBit 127 = false) :=
  ⟨by decide, by decide, claim_C3 ⟨1, 2⟩ ⟨3, 4⟩ (by decide) (by decide)⟩

/-- C4: for every canonical element `a`, the general multiplier agrees with
each specialized constant multiplier at the four two-bit constants:
`mul a (from_int k)` equals `mul_00 a`, `mul_01 a`, `mul_10 a`, `mul_11 a`
for `k = 0, 1, 2, 3` respectively. -/
theorem claim_C4 (a : Gf2p127) (h : gfCanon a) :
    gf2p127_mul a (gf2p127_from_int 0) = gf2p127_mul_00 a
    ∧ gf2p127_mul a (gf2p127_from_int 1) = gf2p127_mul_01 a
    ∧ gf2p127_mul a (gf2p127_from_int 2) = gf2p127_mul_10 a
    ∧ gf2p127_mul a (gf2p127_from_int 3) = gf2p127_mul_11 a := by
  have hwf := gfCanon_wf h
  have hA : gfVal a < 2^127 := gfVal_lt_of_canon h
  have hA128 : gfVal a < 2^128 := gfVal_lt hwf
  have h2A : 2 * gfVal a < 2^128 := by
    have h128 : (2:Nat)^128 = 2 * 2^127 := by norm_num
    omega
  have htb : (2 * gfVal a).testBit 127 = (gfVal a).testBit 126 := by
    have hsh : 2 * gfVal a = gfVal a <<< 1 := by rw [Nat.shiftLeft_eq]; ring
    rw [hsh, Nat.testBit_shiftLeft]
    norm_num
  have hk2v : polyModF (2 * gfVal a) = gfVal (gf2p127_mul_10 a) := by
    rw [polyModF_small h2A, htb, mul_10_val h]
  refine ⟨?_, ?_, ?_, ?_⟩
  · have hwf0 : gfWF (gf2p127_mul_00 a) :=
      ⟨show (0:Nat) < 2^64 by norm_num, show (0:Nat) < 2^64 by norm_num⟩
    apply gfVal_inj (gfWF_mul _ _) hwf0
    rw [gf2p127_mul_val h (by decide),
      from_int_val (show (0:Nat) < 2^32 by norm_num), clmul128_def,
      clmulAux_zero_right, polyModF_eq_self (show (0:Nat) < 2^127 by norm_num)]
    simp [gf2p127_mul_00, mm_setzero_si128, gfVal, Nat.zero_shiftLeft]
  · apply gfVal_inj (gfWF_mul _ _) hwf
    rw [gf2p127_mul_val h (by decide),
      from_int_val (show (1:Nat) < 2^32 by norm_num), clmul128_def,
      clmulAux_one_right 128 hA128, polyModF_eq_self hA]
  · apply gfVal_inj (gfWF_mul _ _) (gfWF_mul_10 hwf)
    rw [gf2p127_mul_val h (by decide),
      from_int_val (show (2:Nat) < 2^32 by norm_num), clmul128_def,
      clmulAux_two_right hA128, hk2v]
  · apply gfVal_inj (gfWF_mul _ _) (gfWF_xor hwf (gfWF_mul_10 hwf))
    rw [gf2p127_mul_val h (by decide),
      from_int_val (show (3:Nat) < 2^32 by norm_num), clmul128_def,
      clmulAux_three_right hA128, polyModF_xor, polyModF_eq_self hA, hk2v, gfVal_xor]

theorem claim_C4_witness :
    gfCanon ⟨9, 0⟩ ∧
      (gf2p127_mul ⟨9, 0⟩ (gf2p127_from_int 0) = gf2p127_mul_00 ⟨9, 0⟩
       ∧ gf2p127_mul ⟨9, 0⟩ (gf2p127_from_int 1) = gf2p127_mul_01 ⟨9, 0⟩
       ∧ gf2p127_mul ⟨9, 0⟩ (gf2p127_from_int 2) = gf2p127_mul_10 ⟨9, 0⟩
       ∧ gf2p127_mul ⟨9, 0⟩ (gf2p127_from_int 3) = gf2p127_mul_11 ⟨9, 0⟩) :=
  ⟨by decide, claim_C4 ⟨9, 0⟩ (by decide)⟩

/-- C5: for every element `a` (any well-formed 128-bit container),
`gf2p127_mul_bit a false = gf2p127_zero` and `gf2p127_mul_bit a true = a`. -/
theorem claim_C5 (a : Gf2p127) (h : gfWF a) :
    gf2p127_mul_bit a false = gf2p127_zero ∧ gf2p127_mul_bit a true = a :=
  mul_bit_spec h

theorem claim_C5_witness :
    gfWF ⟨6, 7⟩ ∧
      (gf2p127_mul_bit ⟨6, 7⟩ false = gf2p127_zero ∧ gf2p127_mul_bit ⟨6, 7⟩ true = ⟨6, 7⟩) :=
  ⟨by decide, claim_C5 ⟨6, 7⟩ (by decide)⟩

/-- C6: for all canonical elements `a`, `b`, `c`, multiplication distributes
over addition: `mul a (add b c) = add (mul a b) (mul a c)`. -/
theorem claim_C6 (a b c : Gf2p127) (ha : gfCanon a) (hb : gfCanon b) (hc : gfCanon c) :
    gf2p127_mul a (gf2p127_add b c) = gf2p127_add (gf2p127_mul a b) (gf2p127_mul a c) := by
  apply gfVal_inj (gfWF_mul _ _) (gfWF_add (gfWF_mul _ _) (gfWF_mul _ _))
  rw [gf2p127_mul_val ha (gfCanon_add hb hc), gfVal_add, gfVal_add,
    gf2p127_mul_val ha hb, gf2p127_mul_val ha hc]
  simp only [clmul128_def]
  rw [clmulAux_xor_right 128 (gfVal a) (gfVal b) (gfVal c), polyModF_xor]

theorem claim_C6_witness :
    gfCanon ⟨1, 0⟩ ∧ gfCanon ⟨2, 0⟩ ∧ gfCanon ⟨3, 0⟩ ∧
      gf2p127_mul ⟨1, 0⟩ (gf2p127_add ⟨2, 0⟩ ⟨3, 0⟩)
        = gf2p127_add (gf2p127_mul ⟨1, 0⟩ ⟨2, 0⟩) (gf2p127_mul ⟨1, 0⟩ ⟨3, 0⟩) :=
  ⟨by decide, by decide, by decide,
    claim_C6 ⟨1, 0⟩ ⟨2, 0⟩ ⟨3, 0⟩ (by decide) (by decide) (by decide)⟩

/-- C7: for every element `m`, `gf2p127_hex m` has exactly 32 characters, all
hexadecimal digits (high 64-bit half first, each half zero-padded to 16
digits by construction), and parsing the 32 digits back reproduces `m`:
`gf2p127_parse_hex (gf2p127_hex m) = m`. -/
theorem claim_C7 (m : Gf2p127) (h : gfWF m) :
    (gf2p127_hex m).length = 32
    ∧ (∀ c ∈ (gf2p127_hex m).data, ∃ d, d < 16 ∧ c = hexChar d)
    ∧ gf2p127_parse_hex (gf2p127_hex m) = m := by
  refine ⟨gf2p127_hex_length, ?_, gf2p127_hex_roundtrip h⟩
  intro c hc
  rw [gf2p127_hex_data, List.mem_append] at hc
  rcases hc with hc | hc
  · exact toHexAux_mem _ _ c hc
  · exact toHexAux_mem _ _ c hc

theorem claim_C7_witness :
    gfWF ⟨3, 5⟩ ∧
      ((gf2p127_hex ⟨3, 5⟩).length = 32
       ∧ (∀ c ∈ (gf2p127_hex ⟨3, 5⟩).data, ∃ d, d < 16 ∧ c = hexChar d)
       ∧ gf2p127_parse_hex (gf2p127_hex ⟨3, 5⟩) = ⟨3, 5⟩) :=
  ⟨by decide, claim_C7 ⟨3, 5⟩ (by decide)⟩

/-- C8 (counterexample to the original claim): `2^32` fits in the low 64-bit
machine word, yet `gf2p127_from_int` passes it through a 32-bit `int` argument
and `_mm_cvtsi32_si128`, truncating it to 0 instead of producing the element
with bit 32 set. -/
theorem claim_C8_counterexample :
    (2^32 : Nat) < 2^64 ∧ gf2p127_from_int (2^32) ≠ (⟨2^32, 0⟩ : Gf2p127) := by
  decide

/-- C8 (amended): for every value `v` that fits in the 32-bit `int` argument
(`v < 2^32`), `gf2p127_from_int v` is the element whose low bits equal `v` and
whose remaining bits are zero, and no reduction is performed (its polynomial
value is exactly `v`). -/
theorem claim_C8 (v : Nat) (h : v < 2^32) :
    gf2p127_from_int v = ⟨v, 0⟩ ∧ gfVal (gf2p127_from_int v) = v := by
  refine ⟨?_, from_int_val h⟩
  apply gf_ext
  · show v % 2^32 = v
    exact Nat.mod_eq_of_lt h
  · rfl

theorem claim_C8_witness :
    (7:Nat) < 2^32 ∧ (gf2p127_from_int 7 = ⟨7, 0⟩ ∧ gfVal (gf2p127_from_int 7) = 7) :=
  ⟨by decide, claim_C8 7 (by decide)⟩

/-- C9: for every element `m`, `gf2p127_show m` renders `m` as a sum of powers
of two: the leading character is `"1"` if bit 0 is set and `"0"` otherwise, and
for each set bit `k ≥ 1`, in increasing order of `k`, the text `" + 2^k"` is
appended. -/
theorem claim_C9 (m : Gf2p127) :
    gf2p127_show m
      = (if (gfVal m).testBit 0 then "1" else "0")
        ++ strConcat (((List.range' 1 127).filter (fun j => (gfVal m).testBit j)).map
            (fun j => " + 2^" ++ Nat.repr j)) :=
  gf2p127_show_spec m

/-- C10: for every 128-bit input `a`, including non-canonical inputs with
bit 127 set, the output of `gf2p127_mul_10 a` has bit 127 equal to 0: `mul_10`
unconditionally re-establishes the representation invariant. -/
theorem claim_C10 (a : Gf2p127) (h : gfWF a) :
    (gfVal (gf2p127_mul_10 a)).testBit 127 = false :=
  mul_10_bit127 h

theorem claim_C10_witness :
    gfWF ⟨0, 2^63⟩ ∧ (gfVal (gf2p127_mul_10 ⟨0, 2^63⟩)).testBit 127 = false :=
  ⟨by decide, claim_C10 ⟨0, 2^63⟩ (by decide)⟩
